import Mathlib

/-!
Shallow embedding of `build-comic.py` (comic viewer generator) and the
JavaScript viewer runtime it emits, together with proofs settling the
frozen specification claims.

Strings are modelled as `List Char` at the computation level (Lean's
`String` is a wrapper around `List Char`); `String` wrappers are used at
API boundaries.  Machine numbers of the Python/JS code are modelled as
`Nat`/`Int` (all arithmetic in the modelled fragment is small and exact).
Python exceptions are modelled with `Except Unit`.
-/

namespace Comic

/-! ### Character utilities (ASCII fragment used by the scripts) -/

def isDigitB (c : Char) : Bool := 48 ≤ c.toNat && c.toNat ≤ 57

def isSpaceB (c : Char) : Bool := c = ' ' || c = '\t' || c = '\r' || c = '\n'

/-- ASCII lower-casing, as applied by Python `str.lower` / the sort key. -/
def lowerC (c : Char) : Char :=
  if 65 ≤ c.toNat && c.toNat ≤ 90 then Char.ofNat (c.toNat + 32) else c

/-- ASCII upper-casing, as applied by Python `str.upper`. -/
def upperC (c : Char) : Char :=
  if 97 ≤ c.toNat && c.toNat ≤ 122 then Char.ofNat (c.toNat - 32) else c

def lowerL (l : List Char) : List Char := l.map lowerC
def upperL (l : List Char) : List Char := l.map upperC

/-! ### Decimal digits: rendering and reading

`toDigits n` is the decimal representation of `n` (Python `str(n)` /
JS `String(n)` for non-negative numbers); `fromDigits` is the numeric
value of a digit string (Python `int` / JS unary `+` on digit strings). -/

def digitChar (d : Nat) : Char := Char.ofNat (48 + d)

/-- Fuel-driven digit rendering (structural, so that concrete instances
evaluate inside the kernel); `toDigits` supplies sufficient fuel. -/
def toDigitsCore : Nat → Nat → List Char → List Char
  | 0, _, acc => acc
  | fuel + 1, n, acc =>
    if n < 10 then digitChar n :: acc
    else toDigitsCore fuel (n / 10) (digitChar (n % 10) :: acc)

def toDigits (n : Nat) : List Char := toDigitsCore (n + 1) n []

def charVal (c : Char) : Nat := c.toNat - 48

def fromDigits (l : List Char) : Nat := l.foldl (fun a c => a * 10 + charVal c) 0

/-- `String(x).padStart(2,'0')` from the JS viewer / Python `f"{x:02d}"`
for non-negative `x`: pad the digit string to length 2 with zeros. -/
def pad2 (l : List Char) : List Char := List.replicate (2 - l.length) '0' ++ l

/-! ### Reference Codec (viewer functions `parseRef` / `makeRef`)

```js
function parseRef(ref) {
    const m = ref.match(/^(\d+)-(\d+)-(\d+)$/);
    return m ? { book: +m[1], chapter: +m[2], page: +m[3], ref } : null;
}
function makeRef(b, c, p) {
    return b + '-' + String(c).padStart(2,'0') + '-' + String(p).padStart(2,'0');
}
```
-/

structure Ref where
  book : Nat
  chapter : Nat
  page : Nat
  ref : String
  deriving Repr, DecidableEq

/-- Python `str.split(sep)` / JS `split`: split a character list at every
occurrence of `sep`, keeping empty segments.  With `sep = '-'` it realises
the anchored regex `^(\d+)-(\d+)-(\d+)$`: a string matches iff it splits
into exactly three non-empty all-digit groups. -/
def splitSep (sep : Char) : List Char → List (List Char)
  | [] => [[]]
  | c :: rest =>
    if c = sep then [] :: splitSep sep rest
    else
      match splitSep sep rest with
      | [] => [[c]]
      | r :: rs => (c :: r) :: rs

def parseRefL (l : List Char) : Option Ref :=
  match splitSep '-' l with
  | [a, b, c] =>
    if a ≠ [] && b ≠ [] && c ≠ [] && (a ++ b ++ c).all isDigitB then
      some ⟨fromDigits a, fromDigits b, fromDigits c, ⟨l⟩⟩
    else none
  | _ => none

def parseRef (s : String) : Option Ref := parseRefL s.toList

def makeRefL (b c p : Nat) : List Char :=
  toDigits b ++ '-' :: (pad2 (toDigits c) ++ '-' :: pad2 (toDigits p))

def makeRef (b c p : Nat) : String := ⟨makeRefL b c p⟩

/-- Viewer `chRef(p)`: `p.book + '-' + String(p.chapter).padStart(2,'0')`. -/
def chRefL (p : Ref) : List Char := toDigits p.book ++ '-' :: pad2 (toDigits p.chapter)

def chRefStr (p : Ref) : String := ⟨chRefL p⟩

example : makeRef 3 4 25 = "3-04-25" := by decide
example : parseRef "3-04-25" = some ⟨3, 4, 25, "3-04-25"⟩ := by decide
example : parseRef "not-a-ref" = none := by decide

/-! ### Lemmas: decimal rendering and the codec round trip -/

theorem toDigitsCore_acc (n : Nat) : ∀ fuel acc, n < fuel →
    toDigitsCore fuel n acc = toDigits n ++ acc := by
  induction n using Nat.strong_induction_on with
  | _ n ih =>
    intro fuel acc hfuel
    obtain ⟨fuel, rfl⟩ : ∃ f, fuel = f + 1 := ⟨fuel - 1, by omega⟩
    by_cases h10 : n < 10
    · simp [toDigitsCore, toDigits, h10]
    · have hdiv : n / 10 < n :=
        Nat.div_lt_self (Nat.lt_of_lt_of_le (by decide) (Nat.le_of_not_lt h10)) (by decide)
      have hfuel' : n / 10 < fuel := by omega
      simp only [toDigitsCore, if_neg h10]
      rw [ih _ hdiv _ _ hfuel']
      have hn : toDigits n = toDigits (n / 10) ++ [digitChar (n % 10)] := by
        show toDigitsCore (n + 1) n [] = _
        simp only [toDigitsCore, if_neg h10]
        exact ih _ hdiv _ _ (by omega)
      rw [hn, List.append_assoc]
      rfl

theorem toDigits_eq (n : Nat) :
    toDigits n = if n < 10 then [digitChar n] else toDigits (n / 10) ++ [digitChar (n % 10)] := by
  by_cases h10 : n < 10
  · simp [toDigits, toDigitsCore, h10]
  · have hdiv : n / 10 < n :=
      Nat.div_lt_self (Nat.lt_of_lt_of_le (by decide) (Nat.le_of_not_lt h10)) (by decide)
    simp only [toDigits, toDigitsCore, if_neg h10]
    exact toDigitsCore_acc _ _ _ hdiv

theorem digitChar_toNat {d : Nat} (h : d < 10) : (digitChar d).toNat = 48 + d := by
  interval_cases d <;> decide

theorem charVal_digitChar {d : Nat} (h : d < 10) : charVal (digitChar d) = d := by
  simp [charVal, digitChar_toNat h]

theorem isDigitB_digitChar {d : Nat} (h : d < 10) : isDigitB (digitChar d) = true := by
  simp [isDigitB, digitChar_toNat h]; omega

theorem toDigits_all_digit (n : Nat) : ∀ c ∈ toDigits n, isDigitB c = true := by
  induction n using Nat.strong_induction_on with
  | _ n ih =>
    rw [toDigits_eq]
    by_cases h10 : n < 10
    · simp [h10, isDigitB_digitChar h10]
    · have hdiv : n / 10 < n :=
        Nat.div_lt_self (Nat.lt_of_lt_of_le (by decide) (Nat.le_of_not_lt h10)) (by decide)
      simp only [if_neg h10]
      intro c hc
      rcases List.mem_append.mp hc with h | h
      · exact ih _ hdiv c h
      · rcases List.mem_singleton.mp h with rfl
        exact isDigitB_digitChar (Nat.mod_lt _ (by decide))

theorem isDigitB_toNat {c : Char} (h : isDigitB c = true) : 48 ≤ c.toNat ∧ c.toNat ≤ 57 := by
  simpa [isDigitB, Bool.and_eq_true, decide_eq_true_eq] using h

theorem digit_ne_of_toNat {c x : Char} (h : isDigitB c = true)
    (hx : x.toNat < 48 ∨ 57 < x.toNat) : c ≠ x := by
  rcases isDigitB_toNat h with ⟨h1, h2⟩
  intro rfl_eq; subst rfl_eq; omega

theorem toDigits_ne_nil (n : Nat) : toDigits n ≠ [] := by
  rw [toDigits_eq]
  by_cases h10 : n < 10 <;> simp [h10]

/-- Digit strings under `foldl` accumulate positionally. -/
theorem foldl_toDigits (n : Nat) : ∀ a : Nat,
    (toDigits n).foldl (fun a c => a * 10 + charVal c) a =
      a * 10 ^ (toDigits n).length + n := by
  induction n using Nat.strong_induction_on with
  | _ n ih =>
    intro a
    rw [toDigits_eq]
    by_cases h10 : n < 10
    · simp [h10, List.foldl, charVal_digitChar h10]
    · have hdiv : n / 10 < n :=
        Nat.div_lt_self (Nat.lt_of_lt_of_le (by decide) (Nat.le_of_not_lt h10)) (by decide)
      simp only [if_neg h10, List.foldl_append, List.foldl, List.length_append,
        List.length_singleton]
      rw [ih _ hdiv a, charVal_digitChar (Nat.mod_lt _ (by decide))]
      have h2 : n / 10 * 10 + n % 10 = n := by omega
      generalize (toDigits (n / 10)).length = L
      have h3 : (a * 10 ^ L + n / 10) * 10 + n % 10 =
          a * 10 ^ (L + 1) + (n / 10 * 10 + n % 10) := by ring
      rw [h2] at h3
      rw [h3]

theorem fromDigits_toDigits (n : Nat) : fromDigits (toDigits n) = n := by
  simp [fromDigits, foldl_toDigits n 0]

theorem fromDigits_pad2_toDigits (n : Nat) : fromDigits (pad2 (toDigits n)) = n := by
  unfold fromDigits pad2
  rw [List.foldl_append]
  have hz : ∀ k, (List.replicate k '0').foldl (fun a c => a * 10 + charVal c) 0 = 0 := by
    intro k
    induction k with
    | zero => rfl
    | succ k ihk => simpa [List.replicate, List.foldl] using ihk
  rw [hz]
  exact fromDigits_toDigits n

theorem pad2_ne_nil {l : List Char} (h : l ≠ []) : pad2 l ≠ [] := by
  unfold pad2
  intro hc
  rcases List.append_eq_nil.mp hc with ⟨_, h2⟩
  exact h h2

theorem pad2_all_digit {l : List Char} (h : ∀ c ∈ l, isDigitB c = true) :
    ∀ c ∈ pad2 l, isDigitB c = true := by
  intro c hc
  rcases List.mem_append.mp hc with hm | hm
  · rcases List.eq_of_mem_replicate hm with rfl; decide
  · exact h c hm

theorem splitSep_ne_nil (sep : Char) (l : List Char) : splitSep sep l ≠ [] := by
  match l with
  | [] => simp [splitSep]
  | c :: rest =>
    by_cases h : c = sep
    · simp [splitSep, h]
    · simp only [splitSep, if_neg h]
      cases hs : splitSep sep rest <;> simp

theorem splitSep_no_sep {sep : Char} {l : List Char} (h : ∀ c ∈ l, c ≠ sep) :
    splitSep sep l = [l] := by
  induction l with
  | nil => rfl
  | cons c rest ihl =>
    have hc : c ≠ sep := h c (List.mem_cons_self c rest)
    have hrest : splitSep sep rest = [rest] := ihl (fun x hx => h x (List.mem_cons_of_mem c hx))
    simp [splitSep, hc, hrest]

theorem splitSep_append_sep {sep : Char} {a rest : List Char} (h : ∀ c ∈ a, c ≠ sep) :
    splitSep sep (a ++ sep :: rest) = a :: splitSep sep rest := by
  induction a with
  | nil => simp [splitSep]
  | cons c as ihl =>
    have hc : c ≠ sep := h c (List.mem_cons_self c as)
    have ih := ihl (fun x hx => h x (List.mem_cons_of_mem c hx))
    simp only [List.cons_append, splitSep, if_neg hc, List.append_eq, ih]

theorem toDigits_no_dash (n : Nat) : ∀ c ∈ toDigits n, c ≠ '-' :=
  fun c hc => digit_ne_of_toNat (toDigits_all_digit n c hc) (by left; decide)

theorem pad2_toDigits_no_dash (n : Nat) : ∀ c ∈ pad2 (toDigits n), c ≠ '-' :=
  fun c hc => digit_ne_of_toNat (pad2_all_digit (toDigits_all_digit n) c hc) (by left; decide)

/-- The codec round trip: decoding an encoded triple recovers it (for all
book/chapter/page values, in particular the range the claim names). -/
theorem parseRef_makeRef (b c p : Nat) :
    parseRef (makeRef b c p) = some ⟨b, c, p, makeRef b c p⟩ := by
  have htl : (makeRef b c p).toList = makeRefL b c p := rfl
  unfold parseRef
  rw [htl]
  unfold parseRefL makeRefL
  rw [splitSep_append_sep (toDigits_no_dash b),
    splitSep_append_sep (pad2_toDigits_no_dash c),
    splitSep_no_sep (pad2_toDigits_no_dash p)]
  have hall : ((toDigits b ++ pad2 (toDigits c)) ++ pad2 (toDigits p)).all isDigitB = true := by
    rw [List.all_eq_true]
    intro x hx
    rcases List.mem_append.mp hx with hx2 | hx2
    · rcases List.mem_append.mp hx2 with hx3 | hx3
      · exact toDigits_all_digit b x hx3
      · exact pad2_all_digit (toDigits_all_digit c) x hx3
    · exact pad2_all_digit (toDigits_all_digit p) x hx2
  simp only [List.append_assoc] at hall
  simp [toDigits_ne_nil b, pad2_ne_nil (toDigits_ne_nil c), pad2_ne_nil (toDigits_ne_nil p),
    hall, fromDigits_toDigits, fromDigits_pad2_toDigits, makeRef, makeRefL]

/-! ### Natural-order sort key (`natural_sort_key` / `sorted` in `find_images`)

```python
def natural_sort_key(s):
    return [int(c) if c.isdigit() else c.lower() for c in re.split(r'(\d+)', str(s))]
```
`re.split(r'(\d+)', s)` alternates non-digit segments (possibly empty at
the two ends) with maximal digit runs; digit runs become integers,
non-digit segments are lower-cased. -/

inductive Chunk where
  | str (s : List Char)
  | num (n : Nat)
  deriving Repr, DecidableEq

/-- Fuel-driven chunking of a character list, one `(\d+)`-split step per
fuel unit; `naturalSortKey` supplies sufficient fuel. -/
def natKeyCore : Nat → List Char → List Chunk
  | 0, _ => []
  | fuel + 1, l =>
    let t := l.takeWhile (fun c => !isDigitB c)
    let r := l.dropWhile (fun c => !isDigitB c)
    match r with
    | [] => [Chunk.str (lowerL t)]
    | _ :: _ =>
      Chunk.str (lowerL t) :: Chunk.num (fromDigits (r.takeWhile isDigitB)) ::
        natKeyCore fuel (r.dropWhile isDigitB)

def naturalSortKey (s : String) : List Chunk := natKeyCore (s.toList.length + 1) s.toList

/-- Python `<` on two string chunks or two int chunks (code-point /
numeric order).  A mixed pair raises `TypeError` in Python; it is
unreachable here because sort keys alternate `str`/`num` strictly, so the
mixed case is fixed arbitrarily (every `num` before every `str`), which
keeps the relation a strict total order. -/
def strLtB : List Char → List Char → Bool
  | _, [] => false
  | [], _ :: _ => true
  | a :: as, b :: bs => a.toNat < b.toNat || (a == b && strLtB as bs)

def chunkLtB : Chunk → Chunk → Bool
  | .num a, .num b => a < b
  | .str a, .str b => strLtB a b
  | .num _, .str _ => true
  | .str _, .num _ => false

/-- Python list `<` (lexicographic, shorter prefix first). -/
def keyLtB : List Chunk → List Chunk → Bool
  | _, [] => false
  | [], _ :: _ => true
  | a :: as, b :: bs => chunkLtB a b || (a == b && keyLtB as bs)

/-- Stable insertion: a new element goes after every element whose key is
not strictly greater.  Any stable sort computes `sorted(imgs,
key=natural_sort_key)`; insertion sort is used for its easy proofs. -/
def insertByKey (x : String) : List String → List String
  | [] => [x]
  | y :: ys =>
    if keyLtB (naturalSortKey x) (naturalSortKey y) then x :: y :: ys
    else y :: insertByKey x ys

def sortImages (l : List String) : List String := l.foldl (fun acc x => insertByKey x acc) []

/-- `a` sorts no later than `b`: `b`'s key is not strictly below `a`'s. -/
def keyLe (a b : String) : Prop := keyLtB (naturalSortKey b) (naturalSortKey a) = false

example : sortImages ["2-9-1.webp", "2-10-1.webp", "2-2-1.webp"] =
    ["2-2-1.webp", "2-9-1.webp", "2-10-1.webp"] := by decide

/-! ### The key comparison is a strict order, and insertion sort sorts -/

theorem strLtB_asymm : ∀ {a b : List Char}, strLtB a b = true → strLtB b a = true → False := by
  intro a
  induction a with
  | nil => intro b h h'; cases b <;> simp [strLtB] at h h'
  | cons x xs ihs =>
    intro b h h'
    cases b with
    | nil => simp [strLtB] at h
    | cons y ys =>
      simp only [strLtB, Bool.or_eq_true, Bool.and_eq_true, beq_iff_eq,
        decide_eq_true_eq] at h h'
      rcases h with h | ⟨rfl_eq, h2⟩
      · rcases h' with h' | ⟨rfl_eq, h2'⟩
        · omega
        · subst rfl_eq; omega
      · subst rfl_eq
        rcases h' with h' | ⟨_, h2'⟩
        · omega
        · exact ihs h2 h2'

theorem strLtB_trans : ∀ {a b c : List Char},
    strLtB a b = true → strLtB b c = true → strLtB a c = true := by
  intro a
  induction a with
  | nil =>
    intro b c hab hbc
    cases c with
    | nil => cases b <;> simp [strLtB] at hab hbc
    | cons z zs => rfl
  | cons x xs ihs =>
    intro b c hab hbc
    cases b with
    | nil => simp [strLtB] at hab
    | cons y ys =>
      cases c with
      | nil => simp [strLtB] at hbc
      | cons z zs =>
        simp only [strLtB, Bool.or_eq_true, Bool.and_eq_true, beq_iff_eq,
          decide_eq_true_eq] at hab hbc ⊢
        rcases hab with h1 | ⟨rfl_eq, h1⟩
        · rcases hbc with h2 | ⟨rfl_eq, h2⟩
          · left; omega
          · subst rfl_eq; left; omega
        · subst rfl_eq
          rcases hbc with h2 | ⟨rfl_eq, h2⟩
          · left; omega
          · subst rfl_eq; right; exact ⟨rfl, ihs h1 h2⟩

theorem chunkLtB_asymm : ∀ {a b : Chunk}, chunkLtB a b = true → chunkLtB b a = true → False := by
  intro a b h h'
  cases a <;> cases b <;> simp_all [chunkLtB]
  · exact strLtB_asymm h h'
  · omega

theorem chunkLtB_trans : ∀ {a b c : Chunk},
    chunkLtB a b = true → chunkLtB b c = true → chunkLtB a c = true := by
  intro a b c hab hbc
  cases a <;> cases b <;> cases c <;> simp_all [chunkLtB]
  · exact strLtB_trans hab hbc
  · omega

theorem keyLtB_asymm : ∀ {a b : List Chunk}, keyLtB a b = true → keyLtB b a = true → False := by
  intro a
  induction a with
  | nil => intro b h h'; cases b <;> simp [keyLtB] at h h'
  | cons x xs ihs =>
    intro b h h'
    cases b with
    | nil => simp [keyLtB] at h
    | cons y ys =>
      simp only [keyLtB, Bool.or_eq_true, Bool.and_eq_true, beq_iff_eq] at h h'
      rcases h with h | ⟨rfl_eq, h2⟩
      · rcases h' with h' | ⟨rfl_eq, h2'⟩
        · exact chunkLtB_asymm h h'
        · subst rfl_eq; exact chunkLtB_asymm h h
      · subst rfl_eq
        rcases h' with h' | ⟨_, h2'⟩
        · exact chunkLtB_asymm h' h'
        · exact ihs h2 h2'

theorem keyLtB_asymm_false {a b : List Chunk} (h : keyLtB a b = true) : keyLtB b a = false :=
  Bool.eq_false_iff.mpr (fun h' => keyLtB_asymm h h')

theorem keyLtB_trans : ∀ {a b c : List Chunk},
    keyLtB a b = true → keyLtB b c = true → keyLtB a c = true := by
  intro a
  induction a with
  | nil =>
    intro b c hab hbc
    cases c with
    | nil => cases b <;> simp [keyLtB] at hab hbc
    | cons z zs => rfl
  | cons x xs ihs =>
    intro b c hab hbc
    cases b with
    | nil => simp [keyLtB] at hab
    | cons y ys =>
      cases c with
      | nil => simp [keyLtB] at hbc
      | cons z zs =>
        simp only [keyLtB, Bool.or_eq_true, Bool.and_eq_true, beq_iff_eq] at hab hbc ⊢
        rcases hab with h1 | ⟨rfl_eq, h1⟩
        · rcases hbc with h2 | ⟨rfl_eq, h2⟩
          · exact Or.inl (chunkLtB_trans h1 h2)
          · subst rfl_eq; exact Or.inl h1
        · subst rfl_eq
          rcases hbc with h2 | ⟨rfl_eq, h2⟩
          · exact Or.inl h2
          · subst rfl_eq; exact Or.inr ⟨rfl, ihs h1 h2⟩

theorem mem_insertByKey {z x : String} : ∀ {l : List String},
    z ∈ insertByKey x l → z = x ∨ z ∈ l := by
  intro l
  induction l with
  | nil => intro h; simpa [insertByKey] using h
  | cons y ys ihs =>
    intro h
    by_cases hc : keyLtB (naturalSortKey x) (naturalSortKey y) = true
    · simp only [insertByKey, if_pos hc, List.mem_cons] at h
      rcases h with h | h | h
      · exact Or.inl h
      · exact Or.inr (by simp [h])
      · exact Or.inr (List.mem_cons_of_mem _ h)
    · simp only [insertByKey, if_neg hc, List.mem_cons] at h
      rcases h with h | h
      · exact Or.inr (by simp [h])
      · rcases ihs h with h2 | h2
        · exact Or.inl h2
        · exact Or.inr (List.mem_cons_of_mem _ h2)

theorem pairwise_insertByKey {x : String} : ∀ {l : List String},
    l.Pairwise keyLe → (insertByKey x l).Pairwise keyLe := by
  intro l
  induction l with
  | nil => intro _; simp [insertByKey]
  | cons y ys ihs =>
    intro hp
    rcases List.pairwise_cons.mp hp with ⟨hy, hys⟩
    by_cases hc : keyLtB (naturalSortKey x) (naturalSortKey y) = true
    · simp only [insertByKey, if_pos hc]
      refine List.pairwise_cons.mpr ⟨?_, hp⟩
      intro z hz
      rcases List.mem_cons.mp hz with rfl_eq | hz2
      · subst rfl_eq; exact keyLtB_asymm_false hc
      · -- z after y in the old list: ¬ z < y; with x < y conclude ¬ z < x
        have hyz : keyLtB (naturalSortKey z) (naturalSortKey y) = false := hy z hz2
        unfold keyLe
        by_cases hzx : keyLtB (naturalSortKey z) (naturalSortKey x) = true
        · have := keyLtB_trans hzx hc; simp_all
        · simpa using hzx
    · simp only [insertByKey, if_neg hc]
      refine List.pairwise_cons.mpr ⟨?_, ihs hys⟩
      intro z hz
      rcases mem_insertByKey hz with rfl_eq | hz2
      · subst rfl_eq
        unfold keyLe
        simpa using hc
      · exact hy z hz2

theorem sortImages_pairwise (l : List String) : (sortImages l).Pairwise keyLe := by
  unfold sortImages
  suffices h : ∀ acc : List String, acc.Pairwise keyLe →
      (l.foldl (fun acc x => insertByKey x acc) acc).Pairwise keyLe by
    exact h [] (by simp)
  induction l with
  | nil => intro acc hacc; simpa using hacc
  | cons x xs ihs =>
    intro acc hacc
    simpa using ihs (insertByKey x acc) (pairwise_insertByKey hacc)

/-- Claim C7: reference codec round trip.  `encode(3,4,25)` yields
`"3-04-25"`, `decode("3-04-25")` yields the triple `(3,4,25)`,
`decode("not-a-ref")` yields null; and for every triple with
`book ≥ 1`, `1 ≤ chapter ≤ 99`, `1 ≤ page ≤ 99`, decoding the encoding
returns the original triple. -/
theorem claim_C7_codec_roundtrip :
    makeRef 3 4 25 = "3-04-25" ∧
    parseRef "3-04-25" = some ⟨3, 4, 25, "3-04-25"⟩ ∧
    parseRef "not-a-ref" = none ∧
    (∀ b c p : Nat, 1 ≤ b → 1 ≤ c → c ≤ 99 → 1 ≤ p → p ≤ 99 →
      parseRef (makeRef b c p) = some ⟨b, c, p, makeRef b c p⟩) := by
  refine ⟨by decide, by decide, by decide, ?_⟩
  intro b c p _ _ _ _ _
  exact parseRef_makeRef b c p

/-- Witness for C7: the round-trip statement applied at `(7, 5, 23)`. -/
theorem claim_C7_codec_roundtrip_witness :
    (1 ≤ 7 ∧ 1 ≤ 5 ∧ 5 ≤ 99 ∧ 1 ≤ 23 ∧ 23 ≤ 99) ∧
    parseRef (makeRef 7 5 23) = some ⟨7, 5, 23, makeRef 7 5 23⟩ :=
  ⟨by decide,
    claim_C7_codec_roundtrip.2.2.2 7 5 23 (by decide) (by decide) (by decide)
      (by decide) (by decide)⟩

/-- Claim C8: natural-order sort.  The generator's sort key turns numeric
runs into integers and lower-cases the rest, the sorted catalog is ordered
by that key, and the spec's example input sorts as stated. -/
theorem claim_C8_natural_sort :
    sortImages ["2-9-1.webp", "2-10-1.webp", "2-2-1.webp"] =
      ["2-2-1.webp", "2-9-1.webp", "2-10-1.webp"] ∧
    naturalSortKey "2-10-1.webp" =
      [Chunk.str [], Chunk.num 2, Chunk.str ['-'], Chunk.num 10, Chunk.str ['-'],
        Chunk.num 1, Chunk.str ['.', 'w', 'e', 'b', 'p']] ∧
    naturalSortKey "AB3" = [Chunk.str ['a', 'b'], Chunk.num 3, Chunk.str []] ∧
    (∀ l : List String, (sortImages l).Pairwise keyLe) :=
  ⟨by decide, by decide, by decide, sortImages_pairwise⟩

/-! ### Page catalog: `build`'s reference map

```python
page_map = {}
for i, im in enumerate(images):
    stem = Path(im).stem
    page_map[stem] = i
images_full = [img_prefix + im for im in images]
```
Note the loop body is unconditional: there is no decode step. -/

/-- Python `Path(name).stem`: the name minus its suffix, where the suffix
is the part from the last `'.'` when that dot is neither the first nor
the last character (so `".bashrc"` and `"a."` keep their dot). -/
def stemOfL (l : List Char) : List Char :=
  let r := l.reverse
  let ext := r.takeWhile (fun c => !(c = '.'))
  match r.dropWhile (fun c => !(c = '.')) with
  | [] => l
  | _ :: base => if ext.isEmpty || base.isEmpty then l else base.reverse

def stemOf (s : String) : String := ⟨stemOfL s.toList⟩

example : stemOf "cover.webp" = "cover" := by decide
example : stemOf "1-01-14.webp" = "1-01-14" := by decide
example : stemOf ".bashrc" = ".bashrc" := by decide
example : stemOf "archive.tar.gz" = "archive.tar" := by decide

/-- A Python dict as a lookup function; insertion shadows older bindings. -/
def insertKey (m : String → Option Nat) (k : String) (v : Nat) : String → Option Nat :=
  fun q => if q = k then some v else m q

def buildPageMapFrom (m : String → Option Nat) : Nat → List String → (String → Option Nat)
  | _, [] => m
  | i, im :: rest => buildPageMapFrom (insertKey m (stemOf im) i) (i + 1) rest

/-- `build`'s `page_map`: every image's stem, mapped to its index. -/
def buildPageMap (images : List String) : String → Option Nat :=
  buildPageMapFrom (fun _ => none) 0 images

/-- `build`'s `images_full` (the `pages` payload): every image, prefixed. -/
def imagesFull (pfx : String) (images : List String) : List String :=
  images.map (fun im => pfx ++ im)

/-- The last position in `images` whose stem is `k` (dict semantics:
later bindings win). -/
def lastStemIdx (k : String) : List String → Option Nat
  | [] => none
  | im :: rest =>
    match lastStemIdx k rest with
    | some i => some (i + 1)
    | none => if stemOf im = k then some 0 else none

theorem buildPageMapFrom_eq (k : String) : ∀ (images : List String) (j : Nat) m,
    buildPageMapFrom m j images k =
      match lastStemIdx k images with
      | some i => some (j + i)
      | none => m k := by
  intro images
  induction images with
  | nil => intro j m; rfl
  | cons im rest ihs =>
    intro j m
    show buildPageMapFrom (insertKey m (stemOf im) j) (j + 1) rest k = _
    rw [ihs (j + 1) (insertKey m (stemOf im) j)]
    cases hrest : lastStemIdx k rest with
    | some i => simp [lastStemIdx, hrest]; omega
    | none =>
      simp only [lastStemIdx, hrest, insertKey]
      by_cases hk : stemOf im = k
      · simp [hk]
      · have : ¬ k = stemOf im := fun h => hk h.symm
        simp [hk, this]

theorem buildPageMap_eq (images : List String) (k : String) :
    buildPageMap images k = lastStemIdx k images := by
  rw [buildPageMap, buildPageMapFrom_eq k images 0]
  cases lastStemIdx k images <;> simp

theorem lastStemIdx_isSome {im : String} {images : List String} (h : im ∈ images) :
    (lastStemIdx (stemOf im) images).isSome = true := by
  induction images with
  | nil => cases h
  | cons x rest ihs =>
    rcases List.mem_cons.mp h with rfl_eq | h2
    · subst rfl_eq
      unfold lastStemIdx
      cases lastStemIdx (stemOf im) rest <;> simp
    · unfold lastStemIdx
      have := ihs h2
      cases hrest : lastStemIdx (stemOf im) rest <;> simp_all

/-- Counterexample to claim C1: a file whose stem does not decode still
contributes an entry to `pageMap` — the key `"cover"` is present and is
not a decodable reference stem. -/
theorem claim_C1_counterexample :
    buildPageMap ["cover.webp"] "cover" = some 0 ∧ parseRef "cover" = none := by
  constructor
  · rfl
  · rfl

/-- Claim C1 (amended): the reference map is built without decoding —
`pageMap` maps each file's stem (decodable or not) to the index of the
last file bearing that stem, so every file contributes an entry, and the
ordered pages list keeps every file (with its path prefix). -/
theorem claim_C1_amended_pagemap :
    (∀ images k, buildPageMap images k = lastStemIdx k images) ∧
    (∀ (images : List String) im, im ∈ images →
      (buildPageMap images (stemOf im)).isSome = true) ∧
    (∀ (pfx : String) (images : List String) (i : Nat),
      (imagesFull pfx images)[i]? = (images[i]?).map (fun im => pfx ++ im)) := by
  refine ⟨buildPageMap_eq, ?_, ?_⟩
  · intro images im h
    rw [buildPageMap_eq]
    exact lastStemIdx_isSome h
  · intro pfx images i
    simp [imagesFull]

/-- Witness for the amended C1 at a concrete catalog containing a
non-decodable stem. -/
theorem claim_C1_amended_pagemap_witness :
    ("cover.webp" ∈ ["1-01-01.webp", "cover.webp"]) ∧
    (buildPageMap ["1-01-01.webp", "cover.webp"] (stemOf "cover.webp")).isSome = true :=
  ⟨by decide, claim_C1_amended_pagemap.2.1 ["1-01-01.webp", "cover.webp"] "cover.webp" (by decide)⟩

/-! ### Outline parser (`parse_toc_txt`, `load_toc`)

The Python is translated line by line; Python exceptions (`ValueError`
from `int`, `IndexError` from `[1]`, unpack errors from `b, c =
token.split('-')`) are modelled as `Except.error ()`, since any of them
aborts the whole parse. -/

/-- Drop matching characters from the right end (`str.rstrip`). -/
def dropEndWhile (p : Char → Bool) (l : List Char) : List Char :=
  (l.reverse.dropWhile p).reverse

/-- Python `str.strip()` (whitespace at both ends; the ASCII whitespace
actually occurring in outline files). -/
def stripL (l : List Char) : List Char := dropEndWhile isSpaceB (l.dropWhile isSpaceB)

/-- The trailing annotation characters removed by `line.rstrip(' !~')`. -/
def isMarkB (c : Char) : Bool := c = ' ' || c = '!' || c = '~'

def rstripMarks (l : List Char) : List Char := dropEndWhile isMarkB l

/-- Python `str.split()` (split on whitespace runs, no empty segments);
fuel-driven so concrete instances reduce in the kernel. -/
def splitWsCore : Nat → List Char → List (List Char)
  | 0, _ => []
  | fuel + 1, l =>
    match l.dropWhile isSpaceB with
    | [] => []
    | l1@(_ :: _) =>
      l1.takeWhile (fun c => !isSpaceB c) ::
        splitWsCore fuel (l1.dropWhile (fun c => !isSpaceB c))

def splitWsL (l : List Char) : List (List Char) := splitWsCore (l.length + 1) l

def startsWithL : List Char → List Char → Bool
  | _, [] => true
  | [], _ :: _ => false
  | c :: cs, p :: ps => c == p && startsWithL cs ps

/-- Python `str.isdigit()` (restricted to ASCII digits, the only digits
occurring in outline files). -/
def isDigitStr (l : List Char) : Bool := !l.isEmpty && l.all isDigitB

/-- Python `int(s)` on a whitespace-free token: optional sign, then
digits (digit-group underscores are not modelled). -/
def parseIntPy (l : List Char) : Option Int :=
  match l with
  | [] => none
  | c :: rest =>
    if c = '-' then if isDigitStr rest then some (-(fromDigits rest : Int)) else none
    else if c = '+' then if isDigitStr rest then some ((fromDigits rest : Int)) else none
    else if isDigitStr l then some ((fromDigits l : Int)) else none

/-- Python `f"{i}"` for an int. -/
def intReprL (i : Int) : List Char :=
  if i < 0 then '-' :: toDigits i.natAbs else toDigits i.natAbs

/-- Python `f"{i:02d}"`: total width 2, zero-padded, sign included in the
width. -/
def fmt02dL (i : Int) : List Char :=
  let s := intReprL i
  if s.length < 2 then '0' :: s else s

structure Sec where
  name : String
  page : String
  lo : List String   -- the Python dict carries the key 'lo' iff this is nonempty
  deriving Repr, DecidableEq

structure Chapter where
  ref : String
  number : Int
  name : String
  toc : String
  sections : List Sec
  deriving Repr, DecidableEq

/-- Parser state: the current-book register and the chapters so far.
`cur_ch` is not stored: it is always the last-appended chapter (it is
assigned exactly when a chapter is appended and never cleared). -/
structure PState where
  curBook : Option Int
  chapters : List Chapter
  deriving Repr, DecidableEq

def mkChapter (b c : Int) (chName : List Char) : Chapter :=
  let chRef := intReprL b ++ '-' :: fmt02dL c
  { ref := ⟨chRef⟩, number := c, name := ⟨chName⟩,
    toc := ⟨chRef ++ ['-', '0', '1']⟩, sections := [] }

def pushChapter (st : PState) (b c : Int) (chName : List Char) : PState :=
  { st with chapters := st.chapters ++ [mkChapter b c chName] }

/-- Append a section to the last (current) chapter. -/
def appendSecL (pageNum : Nat) (secName : List Char) (los : List (List Char)) :
    List Chapter → List Chapter
  | [] => []
  | [ch] =>
    let pageRef := ch.ref.toList ++ '-' :: pad2 (toDigits pageNum)
    [{ ch with sections := ch.sections ++
        [{ name := ⟨secName⟩, page := ⟨pageRef⟩, lo := los.map (⟨·⟩) }] }]
  | ch :: rest => ch :: appendSecL pageNum secName los rest

/-- `line = raw.strip()` of the loop body. -/
def lineOf (raw : String) : List Char := stripL raw.toList

/-- `parts = [p.strip() for p in line.rstrip(' !~').split('|')]`. -/
def partsOf (raw : String) : List (List Char) :=
  (splitSep '|' (rstripMarks (lineOf raw))).map stripL

/-- `if not line or line.startswith('#'): continue`. -/
def isSkipLine (raw : String) : Bool :=
  (lineOf raw).isEmpty || startsWithL (lineOf raw) ['#']

/-- The `BOOK num | name` branch (`cur_book = int(parts[0].split()[1])`). -/
def bookBranch (st : PState) (p0 : List Char) : Except Unit PState :=
  match (splitWsL p0)[1]? with
  | none => .error ()                 -- IndexError
  | some w =>
    match parseIntPy w with
    | none => .error ()               -- ValueError
    | some b => .ok { st with curBook := some b }

/-- The `CH` branch, from the extracted token onward. -/
def chBranch (st : PState) (token chName : List Char) : Except Unit PState :=
  if token.contains '-' then
    match splitSep '-' token with
    | [bs, cs] =>
      match parseIntPy bs, parseIntPy cs with
      | some b, some c => .ok (pushChapter { st with curBook := some b } b c chName)
      | _, _ => .error ()             -- ValueError
    | _ => .error ()                  -- unpack error: not exactly two parts
  else
    match parseIntPy token with
    | none => .error ()               -- ValueError
    | some c =>
      match st.curBook with
      | none => .ok st                -- no book register: chapter skipped
      | some b => .ok (pushChapter st b c chName)

/-- The section branch (`page | name | LOs`, guarded by `isdigit`). -/
def secBranch (st : PState) (p0 : List Char) (parts : List (List Char)) : PState :=
  let pageNum := fromDigits p0
  let secName := match parts[1]? with
    | some s => s
    | none => 'P' :: 'a' :: 'g' :: 'e' :: ' ' :: toDigits pageNum
  let loStr := (parts[2]?).getD []
  let los := if loStr.isEmpty then []
    else ((splitSep ',' loStr).map stripL).filter (fun x => !x.isEmpty)
  { st with chapters := appendSecL pageNum secName los st.chapters }

/-- One iteration of the `parse_toc_txt` loop. -/
def stepLine (st : PState) (raw : String) : Except Unit PState :=
  if isSkipLine raw then .ok st
  else
    let parts := partsOf raw
    let p0 := parts.headD []          -- parts is never empty
    if startsWithL (upperL p0) ['B', 'O', 'O', 'K'] then bookBranch st p0
    else if startsWithL (upperL p0) ['C', 'H'] then
      match (splitWsL p0)[1]? with
      | none => .error ()             -- IndexError
      | some token => chBranch st token ((parts[1]?).getD [])
    else if isDigitStr p0 && !st.chapters.isEmpty then .ok (secBranch st p0 parts)
    else .ok st

/-- The whole `parse_toc_txt` loop over the file's lines. -/
def parseTocLines (lines : List String) : Except Unit (List Chapter) :=
  (lines.foldlM stepLine { curBook := none, chapters := [] }).map (·.chapters)

/-- `parse_toc_txt` including the missing-file and empty-result cases
(`return chapters if chapters else None`). -/
def parseTocTxt (txt : Option (List String)) : Except Unit (Option (List Chapter)) :=
  match txt with
  | none => .ok none
  | some lines => (parseTocLines lines).map (fun chs => if chs.isEmpty then none else some chs)

/-- A chapter node of `toc.json` (fields read with `.get` are optional;
`ch['number']` is indexed directly and is modelled as required). -/
structure ChJ where
  number : Int
  name : Option String
  toc : Option String
  sections : Option (List Sec)
  deriving Repr, DecidableEq

structure BookJ where
  book : Option Int
  chapters : Option (List ChJ)
  deriving Repr, DecidableEq

/-- The `toc.json` flattening loop of `load_toc`. -/
def flattenToc (data : List BookJ) : List Chapter :=
  (data.map (fun bk =>
    let b := bk.book.getD 0
    (bk.chapters.getD []).map (fun ch =>
      let chRef := intReprL b ++ '-' :: fmt02dL ch.number
      { ref := ⟨chRef⟩, number := ch.number, name := ch.name.getD "",
        toc := ch.toc.getD ⟨chRef ++ ['-', '0', '1']⟩,
        sections := ch.sections.getD [] }))).flatten

/-- `load_toc`: prefer `toc.txt`, fall back to `toc.json`; the inputs are
the file contents (`none` = file absent), the result pairs the outline
with the source label. -/
def loadToc (txt : Option (List String)) (js : Option (List BookJ)) :
    Except Unit (Option (List Chapter) × Option String) := do
  let toc ← parseTocTxt txt
  match toc with
  | some chs => .ok (some chs, some "toc.txt")
  | none =>
    match js with
    | some data => .ok (some (flattenToc data), some "toc.json")
    | none => .ok (none, none)

instance {ε α : Type} [DecidableEq ε] [DecidableEq α] : DecidableEq (Except ε α) := fun a b =>
  match a, b with
  | .ok x, .ok y => if h : x = y then isTrue (by simp [h]) else isFalse (by simp [h])
  | .error x, .error y => if h : x = y then isTrue (by simp [h]) else isFalse (by simp [h])
  | .ok _, .error _ => isFalse (by simp)
  | .error _, .ok _ => isFalse (by simp)

example : parseTocLines ["CH 1-01 | Intro", "03 | Middle | LO1, LO2"] =
    .ok [⟨"1-01", 1, "Intro", "1-01-01",
      [⟨"Middle", "1-01-03", ["LO1", "LO2"]⟩]⟩] := by decide

example : parseTocLines ["BOOK 2", "# comment", "CH 4 | X  !", "", "05 | S"] =
    .ok [⟨"2-04", 4, "X", "2-04-01", [⟨"S", "2-04-05", []⟩]⟩] := by decide

example : parseTocLines ["CH x | Bad", "CH 1-01 | Good"] = .error () := by decide

example : parseTocLines ["03 | Orphan section"] = .ok [] := by decide

/-- Claim C6: source selection is primary-over-fallback.  If `toc.txt`
parses to at least one chapter, `load_toc` returns that result whatever
the `toc.json` content (so the fallback is never used); `toc.json` is
consulted exactly when `toc.txt` is absent or yields an empty result. -/
theorem claim_C6_primary_over_fallback :
    (∀ (lines : List String) (js : Option (List BookJ)) (chs : List Chapter),
      parseTocLines lines = .ok chs → chs ≠ [] →
      loadToc (some lines) js = .ok (some chs, some "toc.txt")) ∧
    (∀ data : List BookJ,
      loadToc none (some data) = .ok (some (flattenToc data), some "toc.json")) ∧
    loadToc none none = .ok (none, none) ∧
    (∀ (lines : List String) (data : List BookJ),
      parseTocLines lines = .ok [] →
      loadToc (some lines) (some data) = .ok (some (flattenToc data), some "toc.json")) := by
  refine ⟨?_, fun data => rfl, rfl, ?_⟩
  · intro lines js chs h hne
    have hempty : chs.isEmpty = false := by
      cases chs with
      | nil => exact absurd rfl hne
      | cons a as => rfl
    simp [loadToc, parseTocTxt, h, Except.map, hempty, Bind.bind, Except.bind]
  · intro lines data h
    simp [loadToc, parseTocTxt, h, Except.map, Bind.bind, Except.bind, List.isEmpty]

/-! ### C2: which malformed lines are dropped, and which abort the parse -/

/-- A line that falls through every branch of the `parse_toc_txt` loop
body (blank, comment, or a first field that is neither a `BOOK` marker,
a `CH` marker, nor a digit string — in particular a section line with a
non-numeric page field).  Built from the same pipeline as `stepLine`. -/
def lineDropped (raw : String) : Bool :=
  if isSkipLine raw then true
  else
    let p0 := (partsOf raw).headD []
    !startsWithL (upperL p0) ['B', 'O', 'O', 'K'] &&
      !startsWithL (upperL p0) ['C', 'H'] && !isDigitStr p0

theorem stepLine_dropped {raw : String} (h : lineDropped raw = true) (st : PState) :
    stepLine st raw = .ok st := by
  unfold stepLine
  unfold lineDropped at h
  by_cases hskip : isSkipLine raw = true
  · simp [hskip]
  · replace hskip : isSkipLine raw = false := by simpa using hskip
    simp only [hskip, Bool.false_eq_true, if_false, Bool.and_eq_true, Bool.not_eq_true'] at h
    obtain ⟨⟨hbook, hch⟩, hdig⟩ := h
    simp only [List.headD_eq_head?_getD] at hbook hch hdig
    simp [hskip, hbook, hch, hdig]

/-- `foldlM` over `Except` distributes over list append. -/
theorem foldlM_append_except {σ α : Type} (f : σ → α → Except Unit σ) (l1 : List α) :
    ∀ (l2 : List α) (s : σ),
      (l1 ++ l2).foldlM f s = (l1.foldlM f s) >>= fun s' => l2.foldlM f s' := by
  induction l1 with
  | nil => intro l2 s; simp
  | cons a as ihl =>
    intro l2 s
    simp only [List.cons_append, List.foldlM_cons]
    cases hfa : f s a with
    | error e => simp [Bind.bind, Except.bind]
    | ok s1 => simp [Bind.bind, Except.bind, ihl l2 s1]

theorem parseTocLines_dropped (pre post : List String) (raw : String)
    (h : lineDropped raw = true) :
    parseTocLines (pre ++ raw :: post) = parseTocLines (pre ++ post) := by
  unfold parseTocLines
  rw [foldlM_append_except, foldlM_append_except]
  cases hpre : pre.foldlM stepLine { curBook := none, chapters := [] } with
  | error e => rfl
  | ok s => simp [Bind.bind, Except.bind, List.foldlM_cons, stepLine_dropped h s]

/-- Counterexample to claim C2: a single malformed `CH` line (token not
an integer) aborts the whole parse with an error, discarding the chapter
from the well-formed line that follows. -/
theorem claim_C2_counterexample :
    parseTocLines ["CH x | Bad", "CH 1-01 | Good"] = .error () ∧
    parseTocLines ["CH 1-01 | Good"] = .ok [⟨"1-01", 1, "Good", "1-01-01", []⟩] :=
  ⟨by decide, by decide⟩

/-- Claim C2 (amended): a line whose first field is neither a `BOOK`
marker, a `CH` marker, nor a digit string — in particular a section line
with a non-numeric page field — is dropped and parsing continues with the
remaining lines unaffected; but a `CH` line with a malformed token raises
an uncaught error that aborts the whole parse. -/
theorem claim_C2_amended_malformed_lines :
    (∀ (pre post : List String) (raw : String), lineDropped raw = true →
      parseTocLines (pre ++ raw :: post) = parseTocLines (pre ++ post)) ∧
    parseTocLines ["CH ? | Bad"] = .error () :=
  ⟨parseTocLines_dropped, by decide⟩

/-- Witness for the amended C2: the malformed section line `"12a | Oops"`
is dropped without affecting the surrounding parse. -/
theorem claim_C2_amended_malformed_lines_witness :
    lineDropped "12a | Oops" = true ∧
    parseTocLines (["CH 1-01 | Good"] ++ "12a | Oops" :: ["02 | S"]) =
      parseTocLines (["CH 1-01 | Good"] ++ ["02 | S"]) :=
  ⟨by decide,
    claim_C2_amended_malformed_lines.1 ["CH 1-01 | Good"] ["02 | S"] "12a | Oops" (by decide)⟩

/-! ### C10: the current-book register persists until overwritten

Helper lemmas evaluating the line pipeline on chapter lines with
symbolic numeric tokens. -/

theorem takeWhile_eq_self_of_all {p : Char → Bool} :
    ∀ {l : List Char}, (∀ c ∈ l, p c = true) → l.takeWhile p = l := by
  intro l
  induction l with
  | nil => intro _; rfl
  | cons c t ihl =>
    intro h
    rw [List.takeWhile_cons_of_pos (h c (List.mem_cons_self _ _)),
      ihl (fun x hx => h x (List.mem_cons_of_mem c hx))]

theorem dropWhile_eq_nil_of_all {p : Char → Bool} :
    ∀ {l : List Char}, (∀ c ∈ l, p c = true) → l.dropWhile p = [] := by
  intro l
  induction l with
  | nil => intro _; rfl
  | cons c t ihl =>
    intro h
    rw [List.dropWhile_cons_of_pos (h c (List.mem_cons_self _ _))]
    exact ihl (fun x hx => h x (List.mem_cons_of_mem c hx))

/-- One unfolding step of the whitespace splitter. -/
theorem splitWsCore_succ (fuel : Nat) (l : List Char) :
    splitWsCore (fuel + 1) l =
      match l.dropWhile isSpaceB with
      | [] => []
      | l1@(_ :: _) =>
        l1.takeWhile (fun c => !isSpaceB c) ::
          splitWsCore fuel (l1.dropWhile (fun c => !isSpaceB c)) := rfl

/-- `"CH <tok>".split()` is `["CH", tok]` for a non-empty spaceless token. -/
theorem splitWsL_ch (tok : List Char) (hne : tok ≠ [])
    (hns : ∀ c ∈ tok, isSpaceB c = false) :
    splitWsL ('C' :: 'H' :: ' ' :: tok) = [['C', 'H'], tok] := by
  obtain ⟨c0, t0, rfl⟩ : ∃ c0 t0, tok = c0 :: t0 := by
    cases tok with
    | nil => exact absurd rfl hne
    | cons a b => exact ⟨a, b, rfl⟩
  have hc0 : isSpaceB c0 = false := hns c0 (List.mem_cons_self _ _)
  have hd : ('C' :: 'H' :: ' ' :: c0 :: t0).dropWhile isSpaceB =
      'C' :: 'H' :: ' ' :: c0 :: t0 := List.dropWhile_cons_of_neg (by decide)
  have ht : ('C' :: 'H' :: ' ' :: c0 :: t0).takeWhile (fun c => !isSpaceB c) = ['C', 'H'] := by
    rw [List.takeWhile_cons_of_pos (by decide), List.takeWhile_cons_of_pos (by decide),
      List.takeWhile_cons_of_neg (by decide)]
  have hr : ('C' :: 'H' :: ' ' :: c0 :: t0).dropWhile (fun c => !isSpaceB c) =
      ' ' :: c0 :: t0 := by
    rw [List.dropWhile_cons_of_pos (by decide), List.dropWhile_cons_of_pos (by decide),
      List.dropWhile_cons_of_neg (by decide)]
  have htok_take : (c0 :: t0).takeWhile (fun c => !isSpaceB c) = c0 :: t0 :=
    takeWhile_eq_self_of_all (fun c hc => by simp [hns c hc])
  have htok_drop : (c0 :: t0).dropWhile (fun c => !isSpaceB c) = [] :=
    dropWhile_eq_nil_of_all (fun c hc => by simp [hns c hc])
  unfold splitWsL
  show splitWsCore ((c0 :: t0).length + 3 + 1) ('C' :: 'H' :: ' ' :: c0 :: t0) = _
  rw [splitWsCore_succ, hd]
  show ('C' :: 'H' :: ' ' :: c0 :: t0).takeWhile (fun c => !isSpaceB c) ::
      splitWsCore ((c0 :: t0).length + 3)
        (('C' :: 'H' :: ' ' :: c0 :: t0).dropWhile (fun c => !isSpaceB c)) = _
  rw [ht, hr]
  congr 1
  show splitWsCore (t0.length + 3 + 1) (' ' :: c0 :: t0) = [c0 :: t0]
  rw [splitWsCore_succ, List.dropWhile_cons_of_pos (by decide),
    List.dropWhile_cons_of_neg (by simp [hc0])]
  show (c0 :: t0).takeWhile (fun c => !isSpaceB c) ::
      splitWsCore (t0.length + 3) ((c0 :: t0).dropWhile (fun c => !isSpaceB c)) = _
  rw [htok_take, htok_drop]
  have hnil : splitWsCore (t0.length + 2 + 1) [] = [] := by rw [splitWsCore_succ]; rfl
  show (c0 :: t0) :: splitWsCore (t0.length + 2 + 1) [] = [c0 :: t0]
  rw [hnil]

/-- Dropping from the right end passes over a non-matching separator. -/
theorem dropEndWhile_append {p : Char → Bool} {c : Char} (hc : p c = false)
    (a t : List Char) : dropEndWhile p (a ++ c :: t) = a ++ c :: dropEndWhile p t := by
  unfold dropEndWhile
  rw [List.reverse_append, List.reverse_cons, List.append_assoc,
    List.singleton_append, List.dropWhile_append]
  by_cases he : (t.reverse.dropWhile p).isEmpty
  · rw [if_pos he, List.dropWhile_cons_of_neg (by simp [hc])]
    have : t.reverse.dropWhile p = [] := by simpa [List.isEmpty_iff] using he
    simp [this]
  · rw [if_neg he]
    simp

theorem digit_not_space {c : Char} (h : isDigitB c = true) : isSpaceB c = false := by
  have e1 : c ≠ ' ' := digit_ne_of_toNat h (by left; decide)
  have e2 : c ≠ '\t' := digit_ne_of_toNat h (by left; decide)
  have e3 : c ≠ '\r' := digit_ne_of_toNat h (by left; decide)
  have e4 : c ≠ '\n' := digit_ne_of_toNat h (by left; decide)
  simp [isSpaceB, e1, e2, e3, e4]

theorem parseIntPy_toDigits (n : Nat) : parseIntPy (toDigits n) = some (n : Int) := by
  obtain ⟨c, t, hct⟩ : ∃ c t, toDigits n = c :: t := by
    cases h : toDigits n with
    | nil => exact absurd h (toDigits_ne_nil n)
    | cons c t => exact ⟨c, t, rfl⟩
  have hall : ∀ x ∈ c :: t, isDigitB x = true := fun x hx =>
    toDigits_all_digit n x (hct ▸ hx)
  have hcd : isDigitB c = true := hall c (List.mem_cons_self _ _)
  have hc1 : ¬ c = '-' := digit_ne_of_toNat hcd (by left; decide)
  have hc2 : ¬ c = '+' := digit_ne_of_toNat hcd (by left; decide)
  have hdig : isDigitStr (c :: t) = true := by
    simp only [isDigitStr, List.isEmpty_cons, Bool.not_false, Bool.true_and]
    exact List.all_eq_true.mpr hall
  rw [hct]
  simp only [parseIntPy]
  rw [if_neg hc1, if_neg hc2, if_pos hdig, ← hct, fromDigits_toDigits]

theorem intReprL_ofNat (n : Nat) : intReprL (n : Int) = toDigits n := by
  unfold intReprL
  rw [if_neg (by omega)]
  simp

theorem fmt02dL_ofNat (n : Nat) : fmt02dL (n : Int) = pad2 (toDigits n) := by
  unfold fmt02dL pad2
  rw [intReprL_ofNat]
  have hlen : 1 ≤ (toDigits n).length := by
    cases h : toDigits n with
    | nil => exact absurd h (toDigits_ne_nil n)
    | cons c t => simp
  by_cases h2 : (toDigits n).length < 2
  · have : (toDigits n).length = 1 := by omega
    simp [this]
  · have : 2 - (toDigits n).length = 0 := by omega
    simp [h2, this]

theorem contains_of_mem {l : List Char} {a : Char} (h : a ∈ l) : l.contains a = true := by
  simp [List.contains, List.elem_eq_mem, h]

theorem contains_eq_false_of_not_mem {l : List Char} {a : Char} (h : a ∉ l) :
    l.contains a = false := by
  simp [List.contains, List.elem_eq_mem, h]

/-- The concrete shape of a chapter line, `"CH <tok> | <nm>"`. -/
def mkChLine (tok : List Char) (nm : String) : String :=
  ⟨'C' :: 'H' :: ' ' :: (tok ++ ' ' :: '|' :: ' ' :: nm.toList)⟩

theorem tok_not_space {c : Char} (h : isDigitB c = true ∨ c = '-') : isSpaceB c = false := by
  rcases h with h | rfl_eq
  · exact digit_not_space h
  · subst rfl_eq; rfl

theorem tok_ne_bar {c : Char} (h : isDigitB c = true ∨ c = '-') : c ≠ '|' := by
  rcases h with h | rfl_eq
  · exact digit_ne_of_toNat h (by right; decide)
  · subst rfl_eq; decide

theorem dropEndWhile_space_single : dropEndWhile isSpaceB [' '] = [] := rfl

/-- The pipeline on a `"CH <tok> | <nm>"` line: it is not skipped, and its
first field is `"CH <tok>"`, for any name part. -/
theorem partsOf_mkChLine (tok : List Char) (nm : String) (hne : tok ≠ [])
    (hOk : ∀ c ∈ tok, isDigitB c = true ∨ c = '-') :
    (partsOf (mkChLine tok nm)).headD [] = 'C' :: 'H' :: ' ' :: tok ∧
    isSkipLine (mkChLine tok nm) = false := by
  have hline : lineOf (mkChLine tok nm) =
      ('C' :: 'H' :: ' ' :: (tok ++ [' '])) ++ '|' ::
        dropEndWhile isSpaceB (' ' :: nm.toList) := by
    unfold lineOf stripL
    have h0 : (mkChLine tok nm).toList =
        'C' :: 'H' :: ' ' :: (tok ++ ' ' :: '|' :: ' ' :: nm.toList) := rfl
    rw [h0, List.dropWhile_cons_of_neg (by decide)]
    have hshape : 'C' :: 'H' :: ' ' :: (tok ++ ' ' :: '|' :: ' ' :: nm.toList) =
        ('C' :: 'H' :: ' ' :: (tok ++ [' '])) ++ '|' :: (' ' :: nm.toList) := by
      simp [List.append_assoc]
    rw [hshape]
    exact @dropEndWhile_append isSpaceB '|' (by decide) _ _
  have hclean : rstripMarks (lineOf (mkChLine tok nm)) =
      ('C' :: 'H' :: ' ' :: (tok ++ [' '])) ++ '|' ::
        rstripMarks (dropEndWhile isSpaceB (' ' :: nm.toList)) := by
    rw [hline]
    exact @dropEndWhile_append isMarkB '|' (by decide) _ _
  have hnobar : ∀ x ∈ 'C' :: 'H' :: ' ' :: (tok ++ [' ']), x ≠ '|' := by
    intro x hx
    rcases List.mem_cons.mp hx with rfl_eq | hx
    · subst rfl_eq; decide
    rcases List.mem_cons.mp hx with rfl_eq | hx
    · subst rfl_eq; decide
    rcases List.mem_cons.mp hx with rfl_eq | hx
    · subst rfl_eq; decide
    rcases List.mem_append.mp hx with hx | hx
    · exact tok_ne_bar (hOk x hx)
    · rcases List.mem_singleton.mp hx with rfl_eq; subst rfl_eq; decide
  have hsplit : splitSep '|' (rstripMarks (lineOf (mkChLine tok nm))) =
      ('C' :: 'H' :: ' ' :: (tok ++ [' '])) ::
        splitSep '|' (rstripMarks (dropEndWhile isSpaceB (' ' :: nm.toList))) := by
    rw [hclean]
    exact splitSep_append_sep hnobar
  obtain ⟨ti, tl, rfl⟩ : ∃ ti tl, tok = ti ++ [tl] := by
    rcases List.eq_nil_or_concat tok with h | ⟨ti, tl, h⟩
    · exact absurd h hne
    · exact ⟨ti, tl, by simpa [List.concat_eq_append] using h⟩
  have htlOk : isDigitB tl = true ∨ tl = '-' := hOk tl (by simp)
  have hnsp : isSpaceB tl = false := tok_not_space htlOk
  have hstripA : stripL ('C' :: 'H' :: ' ' :: ((ti ++ [tl]) ++ [' '])) =
      'C' :: 'H' :: ' ' :: (ti ++ [tl]) := by
    unfold stripL
    rw [List.dropWhile_cons_of_neg (by decide)]
    have hshape : 'C' :: 'H' :: ' ' :: ((ti ++ [tl]) ++ [' ']) =
        ('C' :: 'H' :: ' ' :: ti) ++ tl :: [' '] := by simp [List.append_assoc]
    rw [hshape, @dropEndWhile_append isSpaceB tl hnsp _ _, dropEndWhile_space_single]
    simp
  constructor
  · unfold partsOf
    rw [hsplit]
    simpa using hstripA
  · unfold isSkipLine
    rw [hline]
    rfl

/-- A `"CH <tok> | <nm>"` line takes the `CH` branch with token `tok`. -/
theorem stepLine_mkChLine (st : PState) (tok : List Char) (nm : String) (hne : tok ≠ [])
    (hOk : ∀ c ∈ tok, isDigitB c = true ∨ c = '-') :
    stepLine st (mkChLine tok nm) =
      chBranch st tok (((partsOf (mkChLine tok nm))[1]?).getD []) := by
  obtain ⟨hp0, hskip⟩ := partsOf_mkChLine tok nm hne hOk
  have hup : upperL ('C' :: 'H' :: ' ' :: tok) = 'C' :: 'H' :: ' ' :: upperL tok := by
    simp [upperL, upperC]
  have hbook : startsWithL (upperL ('C' :: 'H' :: ' ' :: tok)) ['B', 'O', 'O', 'K'] = false := by
    rw [hup]; simp [startsWithL]
  have hch : startsWithL (upperL ('C' :: 'H' :: ' ' :: tok)) ['C', 'H'] = true := by
    rw [hup]; simp [startsWithL]
  have hws : (splitWsL ('C' :: 'H' :: ' ' :: tok))[1]? = some tok := by
    rw [splitWsL_ch tok hne (fun c hc => tok_not_space (hOk c hc))]
    rfl
  unfold stepLine
  rw [hskip]
  simp only [Bool.false_eq_true, if_false, hp0, hbook, hch, hws]
  simp

theorem chBranch_dashed (st : PState) (b c : Nat) (chName : List Char) :
    chBranch st (toDigits b ++ '-' :: toDigits c) chName =
      .ok (pushChapter { st with curBook := some (b : Int) } (b : Int) (c : Int) chName) := by
  unfold chBranch
  rw [if_pos (contains_of_mem (by simp))]
  rw [splitSep_append_sep (toDigits_no_dash b), splitSep_no_sep (toDigits_no_dash c)]
  simp [parseIntPy_toDigits]

theorem chBranch_legacy (st : PState) (n : Nat) (chName : List Char) :
    chBranch st (toDigits n) chName =
      match st.curBook with
      | none => .ok st
      | some bk => .ok (pushChapter st bk (n : Int) chName) := by
  have hnd : (toDigits n).contains '-' = false :=
    contains_eq_false_of_not_mem (fun hm => toDigits_no_dash n '-' hm rfl)
  unfold chBranch
  rw [hnd]
  simp only [Bool.false_eq_true, if_false, parseIntPy_toDigits]

theorem chBranch_preserves {st st' : PState} {token chName : List Char}
    (hnd : token.contains '-' = false) (h : chBranch st token chName = .ok st') :
    st'.curBook = st.curBook := by
  unfold chBranch at h
  rw [hnd] at h
  simp only [Bool.false_eq_true, if_false] at h
  cases hp : parseIntPy token with
  | none => rw [hp] at h; simp at h
  | some c =>
    rw [hp] at h
    cases hcb : st.curBook with
    | none =>
      rw [hcb] at h
      have h2 : st = st' := by simpa using h
      rw [← h2]
      exact hcb
    | some bk =>
      rw [hcb] at h
      have h2 : pushChapter st bk c chName = st' := by simpa using h
      rw [← h2]
      exact hcb

/-- Whether a line writes the current-book register: a `BOOK` line, or a
self-contained dashed `CH` line (built from the same pipeline as
`stepLine`; a `CH` line with no second word errors out anyway and is
marked conservatively). -/
def affectsBook (raw : String) : Bool :=
  if isSkipLine raw then false
  else
    let p0 := (partsOf raw).headD []
    if startsWithL (upperL p0) ['B', 'O', 'O', 'K'] then true
    else if startsWithL (upperL p0) ['C', 'H'] then
      match (splitWsL p0)[1]? with
      | none => true
      | some token => token.contains '-'
    else false

theorem stepLine_preserves_curBook {st st' : PState} {raw : String}
    (h : affectsBook raw = false) (hs : stepLine st raw = .ok st') :
    st'.curBook = st.curBook := by
  unfold stepLine at hs
  unfold affectsBook at h
  by_cases hskip : isSkipLine raw = true
  · simp only [hskip, if_true] at hs
    have h2 : st = st' := by simpa using hs
    rw [← h2]
  · replace hskip : isSkipLine raw = false := by simpa using hskip
    simp only [hskip, Bool.false_eq_true, if_false] at hs h
    by_cases hbook :
        startsWithL (upperL ((partsOf raw).headD [])) ['B', 'O', 'O', 'K'] = true
    · rw [if_pos hbook] at h
      simp at h
    · rw [if_neg hbook] at h hs
      by_cases hch : startsWithL (upperL ((partsOf raw).headD [])) ['C', 'H'] = true
      · rw [if_pos hch] at h hs
        cases hw : (splitWsL ((partsOf raw).headD []))[1]? with
        | none => rw [hw] at h; simp at h
        | some token =>
          rw [hw] at h hs
          exact chBranch_preserves (by simpa using h) (by simpa using hs)
      · rw [if_neg hch] at hs
        by_cases hdig : (isDigitStr ((partsOf raw).headD []) && !st.chapters.isEmpty) = true
        · rw [if_pos hdig] at hs
          have h2 : secBranch st ((partsOf raw).headD []) (partsOf raw) = st' := by
            simpa using hs
          rw [← h2]
          rfl
        · rw [if_neg hdig] at hs
          have h2 : st = st' := by simpa using hs
          rw [← h2]

theorem foldlM_preserves_curBook : ∀ (mid : List String) (s s' : PState),
    (∀ l ∈ mid, affectsBook l = false) → mid.foldlM stepLine s = .ok s' →
    s'.curBook = s.curBook := by
  intro mid
  induction mid with
  | nil =>
    intro s s' _ hf
    simp only [List.foldlM_nil] at hf
    injection hf with h2
    subst h2; rfl
  | cons a as ihm =>
    intro s s' hall hf
    rw [List.foldlM_cons] at hf
    cases hstep : stepLine s a with
    | error e => rw [hstep] at hf; simp [Bind.bind, Except.bind] at hf
    | ok s1 =>
      rw [hstep] at hf
      simp only [Bind.bind, Except.bind] at hf
      have h1 := stepLine_preserves_curBook (hall a (List.mem_cons_self _ _)) hstep
      have h2 := ihm s1 s' (fun l hl => hall l (List.mem_cons_of_mem a hl)) hf
      rw [h2, h1]

theorem getLast?_append_singleton {α : Type} (l : List α) (a : α) :
    (l ++ [a]).getLast? = some a := List.getLast?_concat _

/-- Counterexample to claim C10 as stated: with only `BOOK` lines
excluded between the two chapter lines, an intervening self-contained
`CH 5-07` line overwrites the register set by `CH 2-01`, so the later
legacy line `CH 3` produces ref `"5-03"`, not `"2-03"`. -/
theorem claim_C10_counterexample :
    parseTocLines ["CH 2-01 | A", "CH 5-07 | B", "CH 3 | C"] =
      .ok [⟨"2-01", 1, "A", "2-01-01", []⟩, ⟨"5-07", 7, "B", "5-07-01", []⟩,
        ⟨"5-03", 3, "C", "5-03-01", []⟩] ∧
    ("5-03" : String) ≠ "2-03" :=
  ⟨by decide, by decide⟩

/-- Claim C10 (amended): the current-book register persists until
overwritten.  A self-contained chapter line `CH b-c` sets the register to
`b`; if no later line writes the register (no `BOOK` line and no
self-contained dashed `CH` line in between), a later legacy line `CH n`
produces a chapter with ref `b-nn` (book `b`, zero-padded chapter `n`)
and number `n`, whenever the parse succeeds. -/
theorem claim_C10_amended_book_register (pre mid : List String) (b c n : Nat)
    (nm nm' : String) (chs : List Chapter)
    (hmid : ∀ l ∈ mid, affectsBook l = false)
    (hparse : parseTocLines (pre ++ mkChLine (toDigits b ++ '-' :: toDigits c) nm ::
      (mid ++ [mkChLine (toDigits n) nm'])) = .ok chs) :
    ∃ ch, chs.getLast? = some ch ∧
      ch.ref = (⟨toDigits b ++ '-' :: pad2 (toDigits n)⟩ : String) ∧
      ch.number = (n : Int) := by
  have hOk2 : ∀ x ∈ toDigits b ++ '-' :: toDigits c, isDigitB x = true ∨ x = '-' := by
    intro x hx
    rcases List.mem_append.mp hx with hx | hx
    · exact Or.inl (toDigits_all_digit b x hx)
    · rcases List.mem_cons.mp hx with rfl_eq | hx
      · exact Or.inr rfl_eq
      · exact Or.inl (toDigits_all_digit c x hx)
  have hne2 : toDigits b ++ '-' :: toDigits c ≠ [] := by
    intro hx; simp at hx
  have hOk1 : ∀ x ∈ toDigits n, isDigitB x = true ∨ x = '-' :=
    fun x hx => Or.inl (toDigits_all_digit n x hx)
  unfold parseTocLines at hparse
  cases hfold : (pre ++ mkChLine (toDigits b ++ '-' :: toDigits c) nm ::
      (mid ++ [mkChLine (toDigits n) nm'])).foldlM stepLine ⟨none, []⟩ with
  | error e => rw [hfold] at hparse; simp [Except.map] at hparse
  | ok sF =>
    rw [hfold] at hparse
    have hchs : sF.chapters = chs := by simpa [Except.map] using hparse
    rw [foldlM_append_except] at hfold
    cases hpre : pre.foldlM stepLine ⟨none, []⟩ with
    | error e => rw [hpre] at hfold; simp [Bind.bind, Except.bind] at hfold
    | ok s0 =>
      rw [hpre] at hfold
      replace hfold : (mkChLine (toDigits b ++ '-' :: toDigits c) nm ::
          (mid ++ [mkChLine (toDigits n) nm'])).foldlM stepLine s0 = .ok sF := by
        simpa [Bind.bind, Except.bind] using hfold
      rw [List.foldlM_cons, stepLine_mkChLine s0 _ nm hne2 hOk2, chBranch_dashed] at hfold
      replace hfold : (mid ++ [mkChLine (toDigits n) nm']).foldlM stepLine
          (pushChapter { s0 with curBook := some (b : Int) } (b : Int) (c : Int)
            (((partsOf (mkChLine (toDigits b ++ '-' :: toDigits c) nm))[1]?).getD []))
          = .ok sF := by
        simpa [Bind.bind, Except.bind] using hfold
      rw [foldlM_append_except] at hfold
      cases hm : mid.foldlM stepLine
          (pushChapter { s0 with curBook := some (b : Int) } (b : Int) (c : Int)
            (((partsOf (mkChLine (toDigits b ++ '-' :: toDigits c) nm))[1]?).getD [])) with
      | error e => rw [hm] at hfold; simp [Bind.bind, Except.bind] at hfold
      | ok s2 =>
        rw [hm] at hfold
        replace hfold : [mkChLine (toDigits n) nm'].foldlM stepLine s2 = .ok sF := by
          simpa [Bind.bind, Except.bind] using hfold
        have hcb2 : s2.curBook = some (b : Int) := by
          rw [foldlM_preserves_curBook mid _ s2 hmid hm]
          rfl
        rw [List.foldlM_cons, stepLine_mkChLine s2 _ nm' (toDigits_ne_nil n) hOk1,
          chBranch_legacy, hcb2] at hfold
        have hsF : sF = pushChapter s2 (b : Int) (n : Int)
            (((partsOf (mkChLine (toDigits n) nm'))[1]?).getD []) := by
          have h2 : pushChapter s2 (b : Int) (n : Int)
              (((partsOf (mkChLine (toDigits n) nm'))[1]?).getD []) = sF := by
            simpa [Bind.bind, Except.bind, List.foldlM_nil, Pure.pure, Except.pure]
              using hfold
          exact h2.symm
        refine ⟨mkChapter (b : Int) (n : Int)
          (((partsOf (mkChLine (toDigits n) nm'))[1]?).getD []), ?_, ?_, rfl⟩
        · rw [← hchs, hsF]
          exact getLast?_append_singleton _ _
        · show (⟨intReprL (b : Int) ++ '-' :: fmt02dL (n : Int)⟩ : String) = _
          rw [intReprL_ofNat, fmt02dL_ofNat]

/-- Witness for the amended C10 at a concrete input: `CH 2-1` then a
comment line then legacy `CH 3` yields a final chapter `2-03`. -/
theorem claim_C10_amended_book_register_witness :
    ((∀ l ∈ ["# note"], affectsBook l = false) ∧
      parseTocLines ([] ++ mkChLine (toDigits 2 ++ '-' :: toDigits 1) "A" ::
        (["# note"] ++ [mkChLine (toDigits 3) "C"])) =
        .ok [⟨"2-01", 1, "A", "2-01-01", []⟩, ⟨"2-03", 3, "C", "2-03-01", []⟩]) ∧
    (∃ ch, ([⟨"2-01", 1, "A", "2-01-01", []⟩,
        ⟨"2-03", 3, "C", "2-03-01", []⟩] : List Chapter).getLast? = some ch ∧
      ch.ref = (⟨toDigits 2 ++ '-' :: pad2 (toDigits 3)⟩ : String) ∧
      ch.number = (3 : Int)) :=
  ⟨⟨by decide, by decide⟩,
    claim_C10_amended_book_register [] ["# note"] 2 1 3 "A" "C" _ (by decide) (by decide)⟩

/-- Witness for C6: a one-chapter `toc.txt` wins over a present,
different `toc.json`. -/
theorem claim_C6_primary_over_fallback_witness :
    (parseTocLines ["CH 1-01 | Intro"] = .ok [⟨"1-01", 1, "Intro", "1-01-01", []⟩] ∧
      ([⟨"1-01", 1, "Intro", "1-01-01", []⟩] : List Chapter) ≠ []) ∧
    loadToc (some ["CH 1-01 | Intro"])
        (some [⟨some 9, some [⟨7, some "Other", none, some []⟩]⟩]) =
      .ok (some [⟨"1-01", 1, "Intro", "1-01-01", []⟩], some "toc.txt") :=
  ⟨⟨by decide, by decide⟩,
    claim_C6_primary_over_fallback.1 _ _ _ (by decide) (by decide)⟩

/-! ### Navigation state machine (the generated viewer's JavaScript)

The viewer consumes `CONFIG = { pages, toc, pageMap }` and mutates a
single `state` object.  Only the fields touched by the claims are
modelled (`page`, `zoom`, `translateX/Y`); numbers on these paths are
integers and small exact fractions, modelled as `Int`/`Rat`. -/

def natStr (n : Nat) : String := ⟨toDigits n⟩

structure NavState where
  page : Int
  zoom : Rat
  tx : Rat
  ty : Rat
  deriving Repr, DecidableEq

structure Config where
  pages : List String
  toc : Option (List Chapter)
  pageMap : String → Option Nat

/-- `getRef(idx)`-style stem: strip everything up to the last `'/'`
(regex `^.*\/` is greedy), then the extension (regex `\.[^.]+$`: a final
dot followed by one or more non-dot characters). -/
def getRefL (pg : List Char) : List Char :=
  let afterSlash := (pg.reverse.takeWhile (fun c => !(c = '/'))).reverse
  let r := afterSlash.reverse
  let ext := r.takeWhile (fun c => !(c = '.'))
  match r.dropWhile (fun c => !(c = '.')) with
  | [] => afterSlash
  | _ :: base => if ext.isEmpty then afterSlash else base.reverse

/-- `getRef(state.page)`.  JS indexing out of range gives `undefined` and
a crash downstream; the model totalises with `""`; every call site passes
the in-range current page. -/
def getRef (cfg : Config) (idx : Nat) : List Char := getRefL (cfg.pages.getD idx "").toList

example : getRefL "pages/3-04-25.webp".toList = "3-04-25".toList := by decide
example : getRefL "cover.webp".toList = "cover".toList := by decide

/-- `CONFIG.toc?.find(x => x.ref === ref)`. -/
def findChapter (cfg : Config) (r : String) : Option Chapter :=
  match cfg.toc with
  | none => none
  | some l => l.find? (fun x => x.ref == r)

/-- `loadPage(idx)`: out-of-range is a silent no-op; otherwise set the
page and reset zoom/pan. -/
def loadPage (n : Nat) (st : NavState) (idx : Int) : NavState :=
  if idx < 0 ∨ (n : Int) ≤ idx then st
  else { page := idx, zoom := 1, tx := 0, ty := 0 }

/-- The init sequence: state from the persisted blob, then
`if (hash) state.page = parseInt(hash[1]) - 1; loadPage(state.page)`. -/
def initNav (n : Nat) (persisted : NavState) (hash : Option Nat) : NavState :=
  let st1 := match hash with
    | some h => { persisted with page := (h : Int) - 1 }
    | none => persisted
  loadPage n st1 st1.page

/-- `window.onhashchange`: `if (m) loadPage(parseInt(m[1]) - 1)`. -/
def onHashChange (n : Nat) (st : NavState) (h : Nat) : NavState :=
  loadPage n st ((h : Int) - 1)

/-- JS `needle.includes`-style containment on character lists. -/
def isPrefixB : List Char → List Char → Bool
  | [], _ => true
  | _ :: _, [] => false
  | a :: as, b :: bs => a == b && isPrefixB as bs

def containsSeq (needle : List Char) : List Char → Bool
  | [] => needle.isEmpty
  | hay@(_ :: hs) => isPrefixB needle hay || containsSeq needle hs

example : containsSeq "3-04-".toList "13-04-25.webp".toList = true := by decide
example : containsSeq "3-04-".toList "3-05-25.webp".toList = false := by decide

/-- The breadcrumb texts: chapter-span label, `#currentPage`,
`#pageTotal`. -/
structure Breadcrumb where
  bc : String
  cp : String
  pt : String
  deriving Repr, DecidableEq

/-- `updateBreadcrumb()`: labels and the chapter page count (the count
filters `CONFIG.pages` by substring containment of `chRef(p) + '-'`). -/
def updateBreadcrumb (cfg : Config) (page : Nat) : Breadcrumb :=
  match parseRefL (getRef cfg page) with
  | none => { bc := "", cp := natStr (page + 1), pt := "/ " ++ natStr cfg.pages.length }
  | some p =>
    let chapter := findChapter cfg (chRefStr p)
    let chLabel := match chapter with
      | some ch => "Ch" ++ natStr p.chapter ++ ": " ++ ch.name
      | none => "Ch " ++ natStr p.chapter
    let pageLabel := if p.page = 1 then "Contents" else "p." ++ natStr p.page
    let chPages := (cfg.pages.filter
      (fun pg => containsSeq (chRefL p ++ ['-']) pg.toList)).length
    { bc := chLabel, cp := pageLabel, pt := "/ " ++ natStr chPages }

/-- The breadcrumb click handler: `idx = CONFIG.pageMap[ref + '-01']; if
(idx !== undefined) loadPage(idx)`. -/
def breadcrumbClick (cfg : Config) (st : NavState) (r : String) : NavState :=
  match cfg.pageMap (r ++ "-01") with
  | some idx => loadPage cfg.pages.length st (idx : Int)
  | none => st

/-- `renderTOC`'s chapter anchor: `CONFIG.pageMap[ch.toc] ?? 0`. -/
def chapterAnchorIdx (cfg : Config) (ch : Chapter) : Nat := (cfg.pageMap ch.toc).getD 0

/-- `renderTOC`'s section anchor: `data-idx="${sIdx ?? 0}"`. -/
def sectionAnchorIdx (cfg : Config) (s : Sec) : Nat := (cfg.pageMap s.page).getD 0

/-- The rendered section elements, in document order: each carries its
chapter's `data-ref` and its resolved `data-idx`. -/
structure SecEl where
  ref : String
  idx : Nat
  deriving Repr, DecidableEq

def domSections (cfg : Config) : List SecEl :=
  match cfg.toc with
  | none => []
  | some toc =>
    (toc.map (fun ch => ch.sections.map
      (fun s => SecEl.mk ch.ref (sectionAnchorIdx cfg s)))).flatten

/-- `dist >= 0 && ref && el.dataset.ref === ref` for one element. -/
def qualifiesEl (cur : Nat) (ref : Option String) (el : SecEl) : Bool :=
  decide (el.idx ≤ cur) && (ref == some el.ref)

/-- One iteration of the `updateTOCHighlight` scan: keep the candidate
with the smallest non-negative distance seen so far (strict improvement,
so the first minimal element wins). -/
def highlightStep (cur : Nat) (ref : Option String) (acc : Option (SecEl × Nat))
    (el : SecEl) : Option (SecEl × Nat) :=
  match acc with
  | none => if qualifiesEl cur ref el then some (el, cur - el.idx) else none
  | some (b, d) =>
    if qualifiesEl cur ref el && decide (cur - el.idx < d) then some (el, cur - el.idx)
    else some (b, d)

/-- `updateTOCHighlight()`: the element left with class `active`. -/
def updateTOCHighlight (cfg : Config) (cur : Nat) : Option SecEl :=
  let ref := (parseRefL (getRef cfg cur)).map chRefStr
  ((domSections cfg).foldl (highlightStep cur ref) none).map (·.1)

/-! ### C9: nearest-section highlight -/

theorem qualifiesEl_iff {cur : Nat} {r : String} {el : SecEl} :
    qualifiesEl cur (some r) el = true ↔ el.idx ≤ cur ∧ el.ref = r := by
  unfold qualifiesEl
  simp only [Bool.and_eq_true, decide_eq_true_eq, beq_iff_eq, Option.some.injEq]
  constructor
  · rintro ⟨h1, h2⟩; exact ⟨h1, h2.symm⟩
  · rintro ⟨h1, h2⟩; exact ⟨h1, h2.symm⟩

/-- Invariant of the `updateTOCHighlight` scan: the accumulator always
holds a qualifying element with its distance, and the final best is a
qualifying element of maximal index among those scanned. -/
theorem highlight_fold_inv (cur : Nat) (r : String) :
    ∀ (l : List SecEl) (acc : Option (SecEl × Nat)),
      (∀ b0 d0, acc = some (b0, d0) → b0.ref = r ∧ b0.idx ≤ cur ∧ d0 = cur - b0.idx) →
      ((l.foldl (highlightStep cur (some r)) acc = none →
          acc = none ∧ ∀ el ∈ l, el.ref = r → cur < el.idx) ∧
       (∀ b d, l.foldl (highlightStep cur (some r)) acc = some (b, d) →
          b.ref = r ∧ b.idx ≤ cur ∧ d = cur - b.idx ∧
          (b ∈ l ∨ ∃ d0, acc = some (b, d0)) ∧
          (∀ el ∈ l, el.ref = r → el.idx ≤ cur → el.idx ≤ b.idx) ∧
          (∀ b0 d0, acc = some (b0, d0) → b0.idx ≤ b.idx))) := by
  intro l
  induction l with
  | nil =>
    intro acc hacc
    constructor
    · intro hres
      exact ⟨hres, by simp⟩
    · intro b d hres
      simp only [List.foldl_nil] at hres
      rcases hacc b d hres with ⟨h1, h2, h3⟩
      refine ⟨h1, h2, h3, Or.inr ⟨d, hres⟩, by simp, ?_⟩
      intro b0 d0 h0
      rw [h0] at hres
      have he := Option.some.inj hres
      injection he with e1 e2
      rw [e1]
  | cons el t iht =>
    intro acc hacc
    simp only [List.foldl_cons]
    have hstep : ∀ b0 d0, highlightStep cur (some r) acc el = some (b0, d0) →
        b0.ref = r ∧ b0.idx ≤ cur ∧ d0 = cur - b0.idx := by
      intro b0 d0 h0
      cases acc with
      | none =>
        by_cases hq : qualifiesEl cur (some r) el = true
        · simp only [highlightStep, hq, if_true] at h0
          have he := Option.some.inj h0
          injection he with e1 e2
          rcases qualifiesEl_iff.mp hq with ⟨hle, href⟩
          rw [← e1, ← e2]
          exact ⟨href, hle, rfl⟩
        · simp only [highlightStep, hq] at h0
          simp at h0
      | some pair =>
        obtain ⟨b1, d1⟩ := pair
        by_cases htk : (qualifiesEl cur (some r) el && decide (cur - el.idx < d1)) = true
        · simp only [highlightStep, htk, if_true] at h0
          have he := Option.some.inj h0
          injection he with e1 e2
          rcases qualifiesEl_iff.mp (Bool.and_elim_left htk) with ⟨hle, href⟩
          rw [← e1, ← e2]
          exact ⟨href, hle, rfl⟩
        · simp only [highlightStep, htk] at h0
          simp at h0
          rcases h0 with ⟨e1, e2⟩
          rw [← e1, ← e2]
          exact hacc b1 d1 rfl
    obtain ⟨ihnone, ihsome⟩ := iht (highlightStep cur (some r) acc el) hstep
    constructor
    · intro hres
      obtain ⟨hacc', hall⟩ := ihnone hres
      have hq : qualifiesEl cur (some r) el = false ∧ acc = none := by
        cases acc with
        | none =>
          by_cases hq2 : qualifiesEl cur (some r) el = true
          · simp only [highlightStep, hq2, if_true] at hacc'
            simp at hacc'
          · exact ⟨by simpa using hq2, rfl⟩
        | some pair =>
          obtain ⟨b1, d1⟩ := pair
          by_cases htk : (qualifiesEl cur (some r) el && decide (cur - el.idx < d1)) = true
          · simp only [highlightStep, htk, if_true] at hacc'
            simp at hacc'
          · simp only [highlightStep, htk] at hacc'
            simp at hacc'
      refine ⟨hq.2, ?_⟩
      intro el2 hel2 href
      rcases List.mem_cons.mp hel2 with rfl_eq | h2
      · subst rfl_eq
        have hnq := hq.1
        by_contra hcur
        have : qualifiesEl cur (some r) el2 = true := qualifiesEl_iff.mpr ⟨by omega, href⟩
        rw [this] at hnq
        cases hnq
      · exact hall el2 h2 href
    · intro b d hres
      obtain ⟨h1, h2, h3, hmem, h4, h5⟩ := ihsome b d hres
      have hmem' : b ∈ el :: t ∨ ∃ d0, acc = some (b, d0) := by
        rcases hmem with hm | ⟨d0, hm⟩
        · exact Or.inl (List.mem_cons_of_mem el hm)
        · -- b came out of the step: either it is el or it was in acc
          cases hacc2 : acc with
          | none =>
            rw [hacc2] at hm
            by_cases hq2 : qualifiesEl cur (some r) el = true
            · simp only [highlightStep, hq2, if_true] at hm
              have he := Option.some.inj hm
              injection he with e1 _
              rw [← e1]
              exact Or.inl (List.mem_cons_self _ _)
            · simp only [highlightStep, hq2] at hm
              simp at hm
          | some pair =>
            obtain ⟨b1, d1⟩ := pair
            rw [hacc2] at hm
            by_cases htk : (qualifiesEl cur (some r) el && decide (cur - el.idx < d1)) = true
            · simp only [highlightStep, htk, if_true] at hm
              have he := Option.some.inj hm
              injection he with e1 _
              rw [← e1]
              exact Or.inl (List.mem_cons_self _ _)
            · simp only [highlightStep, htk] at hm
              simp at hm
              obtain ⟨e1, _⟩ := hm
              subst e1
              exact Or.inr ⟨d1, rfl⟩
      refine ⟨h1, h2, h3, hmem', ?_, ?_⟩
      · intro el2 hel2 href hle
        rcases List.mem_cons.mp hel2 with rfl_eq | hm
        · subst rfl_eq
          have hqe : qualifiesEl cur (some r) el2 = true := qualifiesEl_iff.mpr ⟨hle, href⟩
          cases hacc2 : acc with
          | none =>
            have hst : highlightStep cur (some r) acc el2 = some (el2, cur - el2.idx) := by
              rw [hacc2]; simp only [highlightStep, hqe, if_true]
            exact h5 el2 _ hst
          | some pair =>
            obtain ⟨b1, d1⟩ := pair
            rcases hacc b1 d1 hacc2 with ⟨hb1r, hb1le, hd1⟩
            by_cases htk : (qualifiesEl cur (some r) el2 && decide (cur - el2.idx < d1)) = true
            · have hst : highlightStep cur (some r) acc el2 = some (el2, cur - el2.idx) := by
                rw [hacc2]; simp only [highlightStep, htk, if_true]
              exact h5 el2 _ hst
            · have hst : highlightStep cur (some r) acc el2 = some (b1, d1) := by
                rw [hacc2]; simp only [highlightStep, htk]
                simp
              have hb1 : b1.idx ≤ b.idx := h5 b1 d1 hst
              have hnlt : ¬ (cur - el2.idx < d1) := by
                intro hlt
                exact htk (by simp [hqe, hlt])
              rw [hd1] at hnlt
              omega
        · exact h4 el2 hm href hle
      · intro b0 d0 h0
        rcases hacc b0 d0 h0 with ⟨hb0r, hb0le, hd0⟩
        by_cases htk : (qualifiesEl cur (some r) el && decide (cur - el.idx < d0)) = true
        · have hst : highlightStep cur (some r) acc el = some (el, cur - el.idx) := by
            rw [h0]; simp only [highlightStep, htk, if_true]
          have hel : el.idx ≤ b.idx := h5 el _ hst
          rcases qualifiesEl_iff.mp (Bool.and_elim_left htk) with ⟨hle2, _⟩
          have hlt : cur - el.idx < d0 := by
            have := Bool.and_elim_right htk
            simpa using this
          rw [hd0] at hlt
          omega
        · have hst : highlightStep cur (some r) acc el = some (b0, d0) := by
            rw [h0]; simp only [highlightStep, htk]
            simp
          exact h5 b0 d0 hst

def demoCfg9 : Config :=
  ⟨["3-04-01.webp", "3-04-02.webp", "3-04-03.webp", "3-04-04.webp", "3-04-05.webp",
    "3-04-06.webp", "3-04-07.webp", "3-04-08.webp", "3-04-09.webp", "3-04-10.webp",
    "3-04-11.webp", "3-04-12.webp", "3-04-13.webp", "3-04-14.webp", "3-04-15.webp",
    "3-04-16.webp", "3-04-17.webp", "3-04-18.webp"],
   some [⟨"3-04", 4, "Area", "3-04-01",
    [⟨"One", "3-04-01", []⟩, ⟨"Three", "3-04-03", []⟩, ⟨"Eleven", "3-04-11", []⟩,
     ⟨"Eighteen", "3-04-18", []⟩]⟩],
   buildPageMap ["3-04-01.webp", "3-04-02.webp", "3-04-03.webp", "3-04-04.webp",
    "3-04-05.webp", "3-04-06.webp", "3-04-07.webp", "3-04-08.webp", "3-04-09.webp",
    "3-04-10.webp", "3-04-11.webp", "3-04-12.webp", "3-04-13.webp", "3-04-14.webp",
    "3-04-15.webp", "3-04-16.webp", "3-04-17.webp", "3-04-18.webp"]⟩

/-- Claim C9: nearest-section highlight.  For a current page whose stem
decodes to chapter key `r`, the highlighted section is a section element
of chapter `r` whose resolved index is ≤ the current index and maximal
among such (minimal non-negative distance); no section is highlighted iff
every section of `r` lies after the current index; and in the spec's
example (chapter `3-04`, sections at pages 01, 03, 11, 18, current index
at page 15) the section at page 11 (index 10) is highlighted. -/
theorem claim_C9_nearest_section :
    (∀ (cfg : Config) (cur : Nat) (r : String),
      (parseRefL (getRef cfg cur)).map chRefStr = some r →
      ((updateTOCHighlight cfg cur = none ↔
          ∀ el ∈ domSections cfg, el.ref = r → cur < el.idx) ∧
       (∀ b, updateTOCHighlight cfg cur = some b →
          b.ref = r ∧ b.idx ≤ cur ∧ b ∈ domSections cfg ∧
          ∀ el ∈ domSections cfg, el.ref = r → el.idx ≤ cur → el.idx ≤ b.idx))) ∧
    updateTOCHighlight demoCfg9 14 = some ⟨"3-04", 10⟩ := by
  constructor
  · intro cfg cur r h
    have hinv := highlight_fold_inv cur r (domSections cfg) none (by simp)
    have hdef : updateTOCHighlight cfg cur =
        ((domSections cfg).foldl (highlightStep cur (some r)) none).map (·.1) := by
      unfold updateTOCHighlight
      rw [h]
    constructor
    · rw [hdef]
      constructor
      · intro hres
        have hnone : (domSections cfg).foldl (highlightStep cur (some r)) none = none :=
          Option.map_eq_none'.mp hres
        exact (hinv.1 hnone).2
      · intro hall
        cases hfold : (domSections cfg).foldl (highlightStep cur (some r)) none with
        | none => simp
        | some pair =>
          obtain ⟨b, d⟩ := pair
          obtain ⟨h1, h2, _, hmem, _, _⟩ := hinv.2 b d hfold
          rcases hmem with hm | ⟨d0, hm⟩
          · exact absurd h2 (by have := hall b hm h1; omega)
          · simp at hm
    · intro b hb
      rw [hdef] at hb
      obtain ⟨⟨b0, d0⟩, hfold, hb0⟩ := Option.map_eq_some'.mp hb
      obtain ⟨h1, h2, _, hmem, h4, _⟩ := hinv.2 b0 d0 hfold
      rcases hmem with hm | ⟨d1, hm⟩
      · rw [← hb0]
        exact ⟨h1, h2, hm, h4⟩
      · simp at hm
  · decide

/-- Witness for C9's general part at the spec's example catalog. -/
theorem claim_C9_nearest_section_witness :
    ((parseRefL (getRef demoCfg9 14)).map chRefStr = some "3-04") ∧
    (∀ b, updateTOCHighlight demoCfg9 14 = some b →
      b.ref = "3-04" ∧ b.idx ≤ 14 ∧ b ∈ domSections demoCfg9 ∧
      ∀ el ∈ domSections demoCfg9, el.ref = "3-04" → el.idx ≤ 14 → el.idx ≤ b.idx) :=
  ⟨by decide, (claim_C9_nearest_section.1 demoCfg9 14 "3-04" (by decide)).2⟩

/-! ### C3: out-of-range navigation -/

theorem loadPage_oob {n : Nat} {st : NavState} {idx : Int}
    (h : idx < 0 ∨ (n : Int) ≤ idx) : loadPage n st idx = st := by
  unfold loadPage
  rw [if_pos h]

/-- Claim C3, checked against the code: `Load(-1)` and `Load(n)` are
no-ops, and an out-of-range `onhashchange` deep link is a no-op; but the
initial deep-link path assigns `parseInt(hash) - 1` to `state.page`
before `loadPage`'s range check runs, so on a 50-page catalog a
`#page=999` fragment leaves the in-memory index at 998, outside
`[0, 49]` — the code, not the claim, is at fault on that path. -/
theorem claim_C3_out_of_range_navigation :
    (∀ st : NavState, loadPage 50 st (-1) = st) ∧
    (∀ st : NavState, loadPage 50 st 50 = st) ∧
    (∀ (st : NavState) (h : Nat), 50 < h → onHashChange 50 st h = st) ∧
    (initNav 50 ⟨0, 1, 0, 0⟩ (some 999)).page = 998 ∧
    ¬ ((initNav 50 ⟨0, 1, 0, 0⟩ (some 999)).page < 50) := by
  refine ⟨fun st => loadPage_oob (by omega), fun st => loadPage_oob (by omega),
    fun st h hlt => loadPage_oob (by omega), by decide, by decide⟩

/-- Witness for C3's out-of-range hash-change no-op at `h = 51`. -/
theorem claim_C3_out_of_range_navigation_witness :
    (50 < 51) ∧ onHashChange 50 ⟨3, 1, 0, 0⟩ 51 = ⟨3, 1, 0, 0⟩ :=
  ⟨by decide, claim_C3_out_of_range_navigation.2.2.1 ⟨3, 1, 0, 0⟩ 51 (by decide)⟩

/-! ### C4: unresolved references -/

def demoCfg4 : Config :=
  ⟨["1-01-01.webp", "1-01-02.webp", "1-01-03.webp", "1-01-04.webp"], none,
    buildPageMap ["1-01-01.webp", "1-01-02.webp", "1-01-03.webp", "1-01-04.webp"]⟩

/-- Counterexample to claim C4: at the breadcrumb chapter-click site an
unresolved reference does not resolve to page index 0 — the click is a
no-op (the current page stays 3; loading index 0 would make it 0). -/
theorem claim_C4_counterexample :
    breadcrumbClick demoCfg4 ⟨3, 1, 0, 0⟩ "2-05" = ⟨3, 1, 0, 0⟩ ∧
    loadPage demoCfg4.pages.length ⟨3, 1, 0, 0⟩ 0 = ⟨0, 1, 0, 0⟩ ∧
    breadcrumbClick demoCfg4 ⟨3, 1, 0, 0⟩ "2-05" ≠
      loadPage demoCfg4.pages.length ⟨3, 1, 0, 0⟩ 0 :=
  ⟨by decide, by decide, by decide⟩

/-- Claim C4 (amended): outline rendering resolves an unresolved chapter
anchor or section page to index 0 (`?? 0`), and lookups never fail; but
the breadcrumb chapter click leaves the state unchanged (a no-op, not a
jump to index 0) when its reference is absent. -/
theorem claim_C4_amended_unresolved_refs :
    (∀ (cfg : Config) (ch : Chapter), cfg.pageMap ch.toc = none →
      chapterAnchorIdx cfg ch = 0) ∧
    (∀ (cfg : Config) (s : Sec), cfg.pageMap s.page = none →
      sectionAnchorIdx cfg s = 0) ∧
    (∀ (cfg : Config) (st : NavState) (r : String), cfg.pageMap (r ++ "-01") = none →
      breadcrumbClick cfg st r = st) := by
  refine ⟨?_, ?_, ?_⟩
  · intro cfg ch h; simp [chapterAnchorIdx, h]
  · intro cfg s h; simp [sectionAnchorIdx, h]
  · intro cfg st r h; simp [breadcrumbClick, h]

/-- Witness for the amended C4 at the concrete catalog. -/
theorem claim_C4_amended_unresolved_refs_witness :
    (demoCfg4.pageMap ("2-05" ++ "-01") = none) ∧
    breadcrumbClick demoCfg4 ⟨3, 1, 0, 0⟩ "2-05" = ⟨3, 1, 0, 0⟩ :=
  ⟨by decide,
    claim_C4_amended_unresolved_refs.2.2 demoCfg4 ⟨3, 1, 0, 0⟩ "2-05" (by decide)⟩

/-! ### C5: breadcrumb derivation -/

def demoCfg5 : Config :=
  ⟨["3-04-01.webp", "13-04-25.webp"], none, buildPageMap ["3-04-01.webp", "13-04-25.webp"]⟩

/-- The count the spec describes: catalog pages whose decoded reference
shares the chapter key.  Written from the claim's words, for comparison
with the code's substring-containment count. -/
def specChapterPageCount (cfg : Config) (r : String) : Nat :=
  (cfg.pages.filter (fun pg =>
    match parseRefL (getRefL pg.toList) with
    | some q => chRefStr q == r
    | none => false)).length

/-- The count the code computes: catalog page paths containing
`chapterKey + "-"` as a substring. -/
def includesChapterPageCount (cfg : Config) (r : List Char) : Nat :=
  (cfg.pages.filter (fun pg => containsSeq (r ++ ['-']) pg.toList)).length

/-- Counterexample to claim C5: with the current page in chapter `3-04`
and a catalog also containing `13-04-25.webp`, the displayed count is 2
(substring `"3-04-"` occurs inside `"13-04-25.webp"`), while only one
catalog page's reference shares the chapter key `3-04`. -/
theorem claim_C5_counterexample :
    (updateBreadcrumb demoCfg5 0).pt = "/ " ++ natStr 2 ∧
    specChapterPageCount demoCfg5 "3-04" = 1 ∧
    (updateBreadcrumb demoCfg5 0).pt ≠
      "/ " ++ natStr (specChapterPageCount demoCfg5 "3-04") :=
  ⟨by decide, by decide, by decide⟩

/-- Claim C5 (amended): for a current page whose stem decodes, the page
label is `"Contents"` iff the page-in-chapter is 1 and `p.<n>` otherwise;
the chapter label carries the chapter's name when the chapter key is in
the outline and a bare number otherwise; and the displayed count is the
number of catalog page paths that contain `chapterKey + "-"` as a
substring (which can differ from the number of pages sharing the chapter
key). -/
theorem claim_C5_amended_breadcrumb :
    ∀ (cfg : Config) (page : Nat) (p : Ref), parseRefL (getRef cfg page) = some p →
      (updateBreadcrumb cfg page).cp =
          (if p.page = 1 then "Contents" else "p." ++ natStr p.page) ∧
      (updateBreadcrumb cfg page).bc =
          (match findChapter cfg (chRefStr p) with
           | some ch => "Ch" ++ natStr p.chapter ++ ": " ++ ch.name
           | none => "Ch " ++ natStr p.chapter) ∧
      (updateBreadcrumb cfg page).pt =
          "/ " ++ natStr (includesChapterPageCount cfg (chRefL p)) := by
  intro cfg page p h
  unfold updateBreadcrumb includesChapterPageCount
  rw [h]
  exact ⟨rfl, rfl, rfl⟩

/-- Witness for the amended C5 at the concrete catalog. -/
theorem claim_C5_amended_breadcrumb_witness :
    (parseRefL (getRef demoCfg5 0) = some ⟨3, 4, 1, "3-04-01"⟩) ∧
    ((updateBreadcrumb demoCfg5 0).cp = "Contents" ∧
      (updateBreadcrumb demoCfg5 0).bc = "Ch 4" ∧
      (updateBreadcrumb demoCfg5 0).pt =
        "/ " ++ natStr (includesChapterPageCount demoCfg5 (chRefL ⟨3, 4, 1, "3-04-01"⟩))) := by
  have h : parseRefL (getRef demoCfg5 0) = some ⟨3, 4, 1, "3-04-01"⟩ := by decide
  have h2 := claim_C5_amended_breadcrumb demoCfg5 0 ⟨3, 4, 1, "3-04-01"⟩ h
  exact ⟨h, by simpa using h2⟩

end Comic
